import Mathlib

/-!
Verification of the prompt-admin persistence and synchronization engine.

The TypeScript sources are shallowly embedded: JSON-valued runtime records
become Lean structures, JavaScript truthiness is made explicit, stateful
`localStorage` access becomes explicit state passing, and promise-based
cloud calls become functions of the remote outcome.

Modelling conventions (JavaScript semantics made explicit):
* Numeric timestamp fields that the code only tests for truthiness
  (`createdAt`, `updatedAt`) are `Int`, with `0` standing for both an
  absent field and an actual `0` — the code cannot distinguish them
  (`!p.createdAt`, `p.updatedAt || Date.now()`).
* `history` is `Option (List Snap)`: `none` is an absent/null field
  (falsy in JS), `some []` is a present empty array (truthy in JS).
* `isFavorite` is `Option Bool`: `none` means the runtime value is not a
  boolean (`typeof p.isFavorite !== 'boolean'`).
* A history entry is a `Snap`: the runtime object carries every scalar
  field of a record, and may itself carry a `history` field.  No code in
  the repository ever reads inside that nested field, so it is abstracted
  by its length: `nestedHistory = none` is an absent field, `some n` a
  present array of `n` entries.
* Model parameters (`temperature`, ...) are `Rat`; the code never
  computes with them, only copies them.
-/

/-- `PromptConfig` from `src/types.ts`: model invocation parameters. -/
structure PromptConfig where
  model : String
  temperature : Rat
  topP : Rat
  topK : Rat
  maxOutputTokens : Option Rat := none
deriving DecidableEq, Repr

/-- A history entry as it exists at runtime (a full snapshot of a record,
its own `history` field abstracted by its length, see file comment). -/
structure Snap where
  id : String
  title : String
  description : String
  systemInstruction : String
  template : String
  tags : List String
  config : PromptConfig
  updatedAt : Int
  createdAt : Int
  isFavorite : Option Bool
  lastUsedAt : Option Int := none
  order : Option Int := none
  nestedHistory : Option Nat := none
deriving DecidableEq, Repr

/-- A prompt record as it exists at runtime (`PromptData` in
`src/types.ts`, but with the loose field types produced by
`JSON.parse`, see file comment). -/
structure JPrompt where
  id : String
  title : String
  description : String
  systemInstruction : String
  template : String
  tags : List String
  config : PromptConfig
  updatedAt : Int
  createdAt : Int
  history : Option (List Snap)
  isFavorite : Option Bool
  lastUsedAt : Option Int := none
  order : Option Int := none
deriving DecidableEq, Repr

/-- `DEFAULT_CONFIG` from `src/constants.ts`. -/
def DEFAULT_CONFIG : PromptConfig :=
  { model := "gemini-2.5-flash", temperature := 7/10, topP := 95/100, topK := 40 }

/-- `INITIAL_PROMPTS` from `src/constants.ts` (the seed records; their
literals call `Date.now()`, passed here as `now`). -/
def INITIAL_PROMPTS (now : Int) : List JPrompt :=
  [ { id := "1", title := "中文翻译专家",
      description := "将任何文本翻译成地道、优雅的中文。",
      systemInstruction := "你是一位精通多国语言的专业翻译家。你的目标是将原文翻译成信、达、雅的简体中文。不要逐字翻译，要根据语境调整语序和用词，使其符合中文母语者的阅读习惯。",
      template := "请将以下文本翻译成中文：\n\n\x7b\x7btext\x7d\x7d",
      tags := ["工具", "翻译"], config := DEFAULT_CONFIG,
      updatedAt := now, createdAt := now, history := some [],
      isFavorite := some true },
    { id := "2", title := "代码解释器",
      description := "解释复杂的代码片段，适合学习和Code Review。",
      systemInstruction := "你是一位资深软件工程师和教育家。请用通俗易懂的语言解释用户提供的代码。涵盖代码的功能、逻辑流、潜在的性能问题以及最佳实践建议。",
      template := "请解释这段 \x7b\x7blanguage\x7d\x7d 代码：\n\n```\x7b\x7blanguage\x7d\x7d\n\x7b\x7bcode\x7d\x7d\n```",
      tags := ["编程", "学习"], config := { DEFAULT_CONFIG with model := "gemini-3-pro-preview" },
      updatedAt := now, createdAt := now, history := some [],
      isFavorite := some false },
    { id := "3", title := "创意小红书文案",
      description := "生成吸引人的社交媒体文案，带Emoji。",
      systemInstruction := "你是一位小红书爆款文案写手。你的文案风格应该是：热情、亲切、使用大量的Emoji，段落短小精悍。",
      template := "请为主题“\x7b\x7btopic\x7d\x7d”写一篇小红书文案。核心卖点是：\x7b\x7bfeatures\x7d\x7d。",
      tags := ["创作", "社交媒体"], config := { DEFAULT_CONFIG with temperature := 9/10 },
      updatedAt := now, createdAt := now, history := some [],
      isFavorite := some false } ]

/-! ## `src/services/storageService.ts` -/

/-- The migration step applied to one parsed entry inside
`getStoredPrompts` (lines 18-36): backfill `createdAt` from
`updatedAt` or `Date.now()`, backfill an absent `history` to `[]`,
coerce a non-boolean `isFavorite` to `false`.  Returns the migrated
entry together with its `changed` flag. -/
def migrateOne (p : JPrompt) (now : Int) : JPrompt × Bool :=
  let c1 := p.createdAt == 0
  let p1 :=
    if c1 then { p with createdAt := if p.updatedAt != 0 then p.updatedAt else now }
    else p
  let c2 := p1.history == none
  let p2 := if c2 then { p1 with history := some [] } else p1
  let c3 := p2.isFavorite == none
  let p3 := if c3 then { p2 with isFavorite := some false } else p2
  (p3, c1 || c2 || c3)

/-- The `parsed.map(...)` pass of `getStoredPrompts` split into its pure
result and its `needsUpdate` flag (the JS loop computes both in one
traversal of the same pure per-entry function). -/
def migrateAll (ps : List JPrompt) (now : Int) : List JPrompt × Bool :=
  (ps.map (fun p => (migrateOne p now).1), ps.any (fun p => (migrateOne p now).2))

/-- The `localStorage` slot `promptmaster_prompts_v1`: `none` when no
value is stored. Parse failures are outside the model (the code falls
back to `INITIAL_PROMPTS` without persisting). -/
abbrev Store := Option (List JPrompt)

/-- Result of a load: the returned collection and the slot afterwards. -/
structure LoadResult where
  prompts : List JPrompt
  store : Store
deriving DecidableEq, Repr

/-- `getStoredPrompts` (storageService lines 6-47): seed on first load,
otherwise migrate every entry and re-persist when anything changed. -/
def getStoredPrompts (store : Store) (now : Int) : LoadResult :=
  match store with
  | none => { prompts := INITIAL_PROMPTS now, store := some (INITIAL_PROMPTS now) }
  | some parsed =>
      let (migrated, needsUpdate) := migrateAll parsed now
      { prompts := migrated,
        store := if needsUpdate then some migrated else some parsed }

/-- The snapshot taken by both save paths:
`const { history: _ignored, ...snapshot } = existing` — every field of
the existing record except `history`. -/
def snapshotOf (p : JPrompt) : Snap :=
  { id := p.id, title := p.title, description := p.description,
    systemInstruction := p.systemInstruction, template := p.template,
    tags := p.tags, config := p.config, updatedAt := p.updatedAt,
    createdAt := p.createdAt, isFavorite := p.isFavorite,
    lastUsedAt := p.lastUsedAt, order := p.order, nestedHistory := none }

/-- JS `Array.prototype.findIndex` by record id (`none` models `-1`). -/
def findIndexById (pid : String) : List JPrompt → Option Nat
  | [] => none
  | p :: ps => if p.id == pid then some 0 else (findIndexById pid ps).map (· + 1)

/-- `savePrompt` (storageService lines 49-76): load (with migration),
snapshot the stored version of an existing id onto the front of its
history capped at 10, or prepend a brand-new record unchanged; persist
the whole collection. -/
def savePrompt (store : Store) (prompt : JPrompt) (now : Int) : Store :=
  let prompts := (getStoredPrompts store now).prompts
  let newPrompts :=
    match findIndexById prompt.id prompts with
    | some index =>
        match prompts[index]? with
        | some currentStored =>
            let snapshot := snapshotOf currentStored
            let updatedHistory := (snapshot :: currentStored.history.getD []).take 10
            prompts.set index
              { prompt with history := some updatedHistory, updatedAt := now }
        | none => prompts  -- unreachable: findIndexById returns in-range indices
    | none => prompt :: prompts
  some newPrompts

/-! ## `src/App.tsx` -/

/-- The record built by `handleCreatePrompt` (App.tsx lines 54-71). -/
def handleCreatePrompt (newId : String) (now : Int) : JPrompt :=
  { id := newId, title := "", description := "", systemInstruction := "",
    template := "", tags := [], config := DEFAULT_CONFIG,
    updatedAt := now, createdAt := now, history := some [],
    isFavorite := some false }

/-- JS regex `\s`: the ECMAScript WhiteSpace and LineTerminator sets
(code points: tab, LF, VT, FF, CR, space, NBSP, Ogham space, the
U+2000-200A range, LS, PS, NNBSP, MMSP, ideographic space, BOM). -/
def jsIsSpace (c : Char) : Bool :=
  c.toNat == 9 || c.toNat == 10 || c.toNat == 11 || c.toNat == 12 ||
  c.toNat == 13 || c.toNat == 32 || c.toNat == 160 || c.toNat == 0x1680 ||
  (0x2000 ≤ c.toNat && c.toNat ≤ 0x200A) || c.toNat == 0x2028 ||
  c.toNat == 0x2029 || c.toNat == 0x202F || c.toNat == 0x205F ||
  c.toNat == 0x3000 || c.toNat == 0xFEFF

/-- JS `String.prototype.trim`: strip leading and trailing WhiteSpace /
LineTerminator characters (the same set as the regex `\\s`). -/
def jsTrim (s : String) : String :=
  String.mk (((s.data.dropWhile jsIsSpace).reverse.dropWhile jsIsSpace).reverse)

/-- The title default at the top of both `handleSavePrompt` variants:
`if (!updatedPrompt.title.trim()) updatedPrompt.title = '未命名提示词'`. -/
def normalizeTitle (p : JPrompt) : JPrompt :=
  if jsTrim p.title == "" then { p with title := "未命名提示词" } else p

/-- `handleSavePrompt` (App.tsx lines 79-117), acting on the in-memory
collection: snapshot an existing id onto the front of its history capped
at 20 and stamp `updatedAt`, or `unshift` a new record unchanged. -/
def handleSavePrompt (prompts : List JPrompt) (updatedPrompt : JPrompt) (now : Int) :
    List JPrompt :=
  let up := normalizeTitle updatedPrompt
  match findIndexById up.id prompts with
  | some index =>
      match prompts[index]? with
      | some existingPrompt =>
          let snapshot := snapshotOf existingPrompt
          let newHistory := (snapshot :: existingPrompt.history.getD []).take 20
          prompts.set index
            { up with history := some newHistory, updatedAt := now }
      | none => prompts  -- unreachable: findIndexById returns in-range indices
  | none => up :: prompts

/-- `handleDuplicatePrompt` (App.tsx lines 120-140): fresh id and
timestamps, empty history, favorite/lastUsed/order reset. -/
def handleDuplicatePrompt (prompt : JPrompt) (newId : String) (now : Int) : JPrompt :=
  { prompt with
    id := newId, title := prompt.title ++ " (副本)",
    updatedAt := now, createdAt := now, history := some [],
    isFavorite := some false, lastUsedAt := none, order := none }

/-- `handleToggleFavorite` (App.tsx lines 142-145): flips the flag and
delegates to `handleSavePrompt`.  (`!x` on a non-boolean yields a
boolean in JS; an absent flag flips to `true`.) -/
def handleToggleFavorite (prompts : List JPrompt) (prompt : JPrompt) (now : Int) :
    List JPrompt :=
  handleSavePrompt prompts { prompt with isFavorite := some (!(prompt.isFavorite.getD false)) } now

/-- `handleMarkAsUsed` (App.tsx lines 147-150). -/
def handleMarkAsUsed (prompts : List JPrompt) (prompt : JPrompt) (now : Int) :
    List JPrompt :=
  handleSavePrompt prompts { prompt with lastUsedAt := some now } now

/-- The state change of a confirmed `handleDeletePrompt` (App.tsx 152-161). -/
def handleDeletePrompt (prompts : List JPrompt) (id : String) : List JPrompt :=
  prompts.filter (fun p => p.id != id)

/-- `handleReorderPrompts` (App.tsx lines 164-180): assign order 0..n-1
along the reordered subset and merge into the master list. -/
def handleReorderPrompts (prompts : List JPrompt) (reorderedSubset : List JPrompt) :
    List JPrompt :=
  let orderMap : List (String × Nat) :=
    reorderedSubset.enum.map (fun ip => (ip.2.id, ip.1))
  prompts.map (fun p =>
    match orderMap.find? (fun kv => kv.1 == p.id) with
    | some kv => { p with order := some (kv.2 : Int) }
    | none => p)

/-! ## `src/services/supabase.ts` -/

/-- The value held in the remote row's `data` column: the code stores a
record array there but reads it back unvalidated (`data?.data as
PromptData[]`), so a non-array value is possible. -/
inductive RemoteVal where
  | arr (ps : List JPrompt)
  | notArray
deriving DecidableEq, Repr

/-- Outcome of the Supabase `select ... single()` call inside
`downloadData`: a row, the "0 rows" error `PGRST116`, another error
object, or a thrown exception. -/
inductive DlResponse where
  | ok (v : RemoteVal)
  | errNoRows
  | errOther (e : String)
  | exn (e : String)
deriving DecidableEq, Repr

/-- `api.downloadData` (supabase.ts lines 32-55): `none` when cloud is
off, the row is absent, or any error occurs (all errors are caught and
logged); otherwise the row's `data` value. -/
def downloadData (isCloudEnabled : Bool) (resp : DlResponse) : Option RemoteVal :=
  if !isCloudEnabled then none
  else
    match resp with
    | .ok v => some v
    | .errNoRows => none
    | .errOther _ => none
    | .exn _ => none

/-- Outcome of the Supabase `upsert` call inside `uploadData`. -/
inductive UpsertResult where
  | ok
  | err (e : String)
deriving DecidableEq, Repr

/-- The body of `uploadData`'s `try` block (supabase.ts lines 62-70):
`if (error) throw error`. -/
def uploadAttempt (r : UpsertResult) : Except String Unit :=
  match r with
  | .ok => Except.ok ()
  | .err e => Except.error e

/-- `api.uploadData` (supabase.ts lines 58-74) as seen by a caller
awaiting its promise: the `try/catch` catches the re-thrown upsert
error and only logs it (`console.error("Supabase save error:", e)`). -/
def uploadData (isCloudEnabled : Bool) (r : UpsertResult) : Except String Unit :=
  if !isCloudEnabled then Except.ok ()
  else
    match uploadAttempt r with
    | Except.ok u => Except.ok u
    | Except.error _ => Except.ok ()  -- caught: logged, not re-thrown

/-! ## Cloud sync and import in `src/App.tsx` -/

/-- The startup sync effect (App.tsx lines 26-38): one download attempt;
a non-empty array replaces both the React state and the local store,
anything else leaves them untouched.  Returns the prompt state and the
store after the effect. -/
def startupSync (isCloudEnabled : Bool) (resp : DlResponse)
    (prompts : List JPrompt) (store : Store) : List JPrompt × Store :=
  if isCloudEnabled then
    match downloadData isCloudEnabled resp with
    | some (.arr cloudData) =>
        if cloudData.length > 0 then (cloudData, some cloudData)
        else (prompts, store)
    | _ => (prompts, store)
  else (prompts, store)

/-- `updatePromptsState` (App.tsx lines 41-52): set state, persist the
whole collection locally, fire an (un-awaited) upload when cloud is on.
The upload's outcome never reaches the caller (`uploadData` resolves
regardless, and the promise is not even awaited here). -/
def updatePromptsState (isCloudEnabled : Bool) (newPrompts : List JPrompt)
    (upsert : UpsertResult) : List JPrompt × Store × Except String Unit :=
  (newPrompts, some newPrompts,
    if isCloudEnabled then uploadData isCloudEnabled upsert else Except.ok ())

/-- The user-visible outcome of an import. -/
inductive ImportAlert where
  | formatError                -- '文件格式错误：必须是 JSON 数组'
  | parseError                 -- '导入失败：文件无法解析或格式不正确。'
  | cloudReplaced (n : Nat)    -- '恢复成功！… 共导入 n 个提示词。'
  | cloudFailed                -- '云端同步失败，仅恢复了本地数据。…'
  | merged (n : Nat)           -- '成功导入 n 个提示词！'
deriving DecidableEq, Repr

/-- JS string truthiness: the empty string is falsy (an absent field
behaves identically and is modelled as `""`). -/
def jsTruthy (s : String) : Bool := s != ""

/-- The replace-mode validity filter in `handleImport` (App.tsx line
229): `importedPrompts.filter(p => p.id && p.template)`. -/
def validPromptsReplace (imported : List JPrompt) : List JPrompt :=
  imported.filter (fun p => jsTruthy p.id && jsTruthy p.template)

/-- Result of App.tsx's `handleImport` after the confirmation gate, on
an array payload: the new prompt state, the new local store, and the
alert shown.  `upsert` is the outcome of the remote upsert that
`await api.uploadData(validPrompts)` performs when cloud is enabled. -/
def handleImport (isCloudEnabled : Bool) (_prompts : List JPrompt) (_store : Store)
    (imported : List JPrompt) (upsert : UpsertResult) :
    List JPrompt × Store × ImportAlert :=
  let validPrompts := validPromptsReplace imported
  if isCloudEnabled then
    match uploadData isCloudEnabled upsert with
    | Except.ok _ =>
        (validPrompts, some validPrompts, .cloudReplaced validPrompts.length)
    | Except.error _ =>
        -- the catch branch of App.tsx lines 242-246
        (validPrompts, some validPrompts, .cloudFailed)
  else
    ((updatePromptsState false validPrompts .ok).1, some validPrompts,
      .merged validPrompts.length)

/-! ## Merge-mode import (`src/unnamed/part_000`, `handleImport`) -/

/-- One `promptMap.set(p.id, p)` step of a JS `Map` represented as its
entry list: replace the value at an existing key in place, else append
a new entry (JS `Map` preserves insertion order of keys). -/
def mapSet (m : List JPrompt) (p : JPrompt) : List JPrompt :=
  if m.any (fun q => q.id == p.id) then
    m.map (fun q => if q.id == p.id then p else q)
  else m ++ [p]

/-- The merge-mode validity test (part_000 line 131):
`p.id && p.title && p.template`. -/
def validMergeEntry (p : JPrompt) : Bool :=
  jsTruthy p.id && jsTruthy p.title && jsTruthy p.template

/-- The merge-mode backfill (part_000 lines 132-134), applied to a
valid imported entry before `promptMap.set`. -/
def importBackfill (p : JPrompt) (now : Int) : JPrompt :=
  let p1 :=
    if p.createdAt == 0 then
      { p with createdAt := if p.updatedAt != 0 then p.updatedAt else now }
    else p
  let p2 := if p1.history == none then { p1 with history := some [] } else p1
  if p2.isFavorite == none then { p2 with isFavorite := some false } else p2

/-- Stable insertion step for the descending-`updatedAt` sort: `p` goes
in front of the first already-placed entry it strictly beats, staying
behind every earlier entry with the same key (JS `sort` with comparator
`(a, b) => b.updatedAt - a.updatedAt` is stable). -/
def insertByUpdated (p : JPrompt) : List JPrompt → List JPrompt
  | [] => [p]
  | q :: qs =>
      if q.updatedAt ≤ p.updatedAt then p :: q :: qs else q :: insertByUpdated p qs

/-- `mergedPrompts.sort((a, b) => b.updatedAt - a.updatedAt)` (part_000
line 140): the stable descending sort by `updatedAt`. -/
def sortByUpdatedDesc (l : List JPrompt) : List JPrompt :=
  l.foldr insertByUpdated []

/-- The merge map after part_000 lines 127-137: current entries first
(in order), then each valid imported entry overlaid by id. -/
def mergeMap (prompts imported : List JPrompt) (now : Int) : List JPrompt :=
  let base := prompts.foldl mapSet []
  imported.foldl
    (fun m p => if validMergeEntry p then mapSet m (importBackfill p now) else m)
    base

/-- The merge-mode `handleImport` of `src/unnamed/part_000` (lines
112-149) after the confirmation gate, on an array payload: overlay
the imported entries onto the id→record map of the current collection,
then sort by `updatedAt` descending.  The success alert reports
`importedPrompts.length` (all parsed entries, dropped or not). -/
def handleImportMerge (prompts : List JPrompt) (imported : List JPrompt) (now : Int) :
    List JPrompt × Store × ImportAlert :=
  let mergedPrompts := sortByUpdatedDesc (mergeMap prompts imported now)
  (mergedPrompts, some mergedPrompts, .merged imported.length)

/-! ## Draft cache and editor initialization -/

/-- Modelled from the spec: the draft cache (spec §4.3) that
`src/components/Icon.tsx`'s embedded editor imports as `getDraft` /
`saveDraft` / `removeDraft` from `../services/storageService`; those
functions are absent from the `src/` snapshot.  The cache is keyed by
record id and stores the full in-progress record. -/
abbrev DraftCache := List (String × JPrompt)

/-- Modelled from the spec: `getDraft(id)` — look up the cached draft
for a record id (spec §4.3 "Keyed by record `id`; stores the full
in-progress record plus its own `updatedAt`"). -/
def getDraft (cache : DraftCache) (id : String) : Option JPrompt :=
  (cache.find? (fun kv => kv.1 == id)).map (fun kv => kv.2)

/-- The editor's choice of initial data (the draft-aware `PromptEditor`
embedded in `src/components/Icon.tsx`, its lines 25-30):
`const draft = getDraft(initialData.id);`
`const startData = (draft && draft.updatedAt > initialData.updatedAt) ? draft : initialData;` -/
def editorStartData (cache : DraftCache) (initialData : JPrompt) : JPrompt :=
  match getDraft cache initialData.id with
  | some draft =>
      if draft.updatedAt > initialData.updatedAt then draft else initialData
  | none => initialData

/-! ## `src/services/geminiService.ts` — template variables

The two regexes are embedded as deterministic character scans.  For
`/{{\s*([a-zA-Z0-9_]+)\s*}}/g` greediness is deterministic: the atoms
`\s*`, `[a-zA-Z0-9_]+` and `}}` match pairwise-disjoint characters, so
no backtracking of a greedy run can ever extend a match.  The same
holds for the fill pattern `{{\s*KEY\s*}}` whenever `KEY` is an
identifier (the only keys the application produces). -/

/-- The left-brace character. -/
def lbrace : Char := Char.ofNat 123

/-- The right-brace character. -/
def rbrace : Char := Char.ofNat 125

/-- Backquote, as used by the `$` + backquote replacement pattern. -/
def bquote : Char := Char.ofNat 96

/-- Apostrophe, as used by the `$` + apostrophe replacement pattern. -/
def apos : Char := Char.ofNat 39

/-- `[a-zA-Z0-9_]`, by code point (the regex class is ASCII-only). -/
def isIdentChar (c : Char) : Bool :=
  (97 ≤ c.toNat && c.toNat ≤ 122) || (65 ≤ c.toNat && c.toNat ≤ 90) ||
  (48 ≤ c.toNat && c.toNat ≤ 57) || c.toNat == 95

/-- Attempt of `\s*([a-zA-Z0-9_]+)\s*}}` right after an opening `{{`:
returns the captured identifier and the characters after the match. -/
def matchVar (cs : List Char) : Option (String × List Char) :=
  let r1 := cs.dropWhile jsIsSpace
  let ident := r1.takeWhile isIdentChar
  match (r1.dropWhile isIdentChar).dropWhile jsIsSpace with
  | c1 :: c2 :: rest =>
      if !ident.isEmpty && c1 == rbrace && c2 == rbrace then
        some (String.mk ident, rest)
      else none
  | _ => none

theorem List.length_dropWhile_le' (p : Char → Bool) (l : List Char) :
    (l.dropWhile p).length ≤ l.length := by
  induction l with
  | nil => simp [List.dropWhile]
  | cons c cs ih =>
      rw [List.dropWhile_cons]
      split
      · simp only [List.length_cons]; omega
      · simp

theorem matchVar_length {cs : List Char} {v : String} {rest : List Char}
    (h : matchVar cs = some (v, rest)) : rest.length < cs.length := by
  simp only [matchVar] at h
  split at h
  · rename_i c1 c2 rest2 heq
    split at h
    · injection h with h2
      cases h2
      have h2 := congrArg List.length heq
      have h3 : (((cs.dropWhile jsIsSpace).dropWhile isIdentChar).dropWhile
          jsIsSpace).length ≤ ((cs.dropWhile jsIsSpace).dropWhile isIdentChar).length :=
        List.length_dropWhile_le' _ _
      have h4 : ((cs.dropWhile jsIsSpace).dropWhile isIdentChar).length ≤
          (cs.dropWhile jsIsSpace).length := List.length_dropWhile_le' _ _
      have h5 : (cs.dropWhile jsIsSpace).length ≤ cs.length :=
        List.length_dropWhile_le' _ _
      simp only [List.length_cons] at h2
      omega
    · exact absurd h (by simp)
  · exact absurd h (by simp)

/-- `extractVariables`'s scan of `template.matchAll(regex)`
(geminiService lines 16-23): at each position try the pattern; on a
match, emit the captured identifier and resume after the match,
otherwise advance one character. -/
def scanVars : List Char → List String
  | [] => []
  | [_] => []
  | c :: c2 :: cs2 =>
      if c == lbrace && c2 == lbrace then
        match h : matchVar cs2 with
        | some (v, rest) => v :: scanVars rest
        | none => scanVars (c2 :: cs2)
      else scanVars (c2 :: cs2)
termination_by l => l.length
decreasing_by
  · simp only [List.length_cons]
    have := matchVar_length h
    omega
  · simp only [List.length_cons]; omega
  · simp only [List.length_cons]; omega

/-- The `Set` in `extractVariables`: keep the first occurrence of each
value, preserving insertion order. -/
def firstDedup : List String → List String
  | [] => []
  | s :: ss => s :: firstDedup (ss.filter (fun t => t != s))
termination_by l => l.length
decreasing_by
  simp only [List.length_cons]
  have := List.length_filter_le (fun t => t != s) ss
  omega

/-- `extractVariables` (geminiService lines 16-24). -/
def extractVariables (template : String) : List String :=
  firstDedup (scanVars template.data)

/-- Strip an exact literal prefix (the spliced `KEY` in the fill
pattern; splicing is literal because identifiers contain no regex
metacharacters). -/
def stripPrefixChars : List Char → List Char → Option (List Char)
  | [], cs => some cs
  | _ :: _, [] => none
  | k :: ks, c :: cs => if c == k then stripPrefixChars ks cs else none

/-- Attempt of `\s*KEY\s*}}` right after an opening `{{`: returns the
matched characters (without the opening braces) and the rest. -/
def matchKeyAt (key : List Char) (cs : List Char) : Option (List Char × List Char) :=
  let sp1 := cs.takeWhile jsIsSpace
  let r1 := cs.dropWhile jsIsSpace
  match stripPrefixChars key r1 with
  | none => none
  | some r2 =>
      let sp2 := r2.takeWhile jsIsSpace
      match r2.dropWhile jsIsSpace with
      | c1 :: c2 :: rest =>
          if c1 == rbrace && c2 == rbrace then
            some (sp1 ++ key ++ sp2 ++ [rbrace, rbrace], rest)
          else none
      | _ => none

/-- Attempt of the whole fill pattern `{{\s*KEY\s*}}` at a position:
returns the full matched text and the rest. -/
def tryMatchKey (key : List Char) : List Char → Option (List Char × List Char)
  | c1 :: c2 :: cs =>
      if c1 == lbrace && c2 == lbrace then
        (matchKeyAt key cs).map (fun mr => (lbrace :: lbrace :: mr.1, mr.2))
      else none
  | _ => none

theorem stripPrefixChars_length {k cs r : List Char}
    (h : stripPrefixChars k cs = some r) : r.length ≤ cs.length := by
  induction k generalizing cs with
  | nil =>
      simp only [stripPrefixChars, Option.some.injEq] at h
      subst h; exact Nat.le_refl _
  | cons a ks ih =>
      match cs with
      | [] => simp [stripPrefixChars] at h
      | c :: cs' =>
          simp only [stripPrefixChars] at h
          by_cases hc : (c == a) = true
          · rw [if_pos hc] at h
            have := ih h
            simp only [List.length_cons]
            omega
          · rw [if_neg hc] at h
            exact absurd h (by simp)

theorem matchKeyAt_length {key cs m rest : List Char}
    (h : matchKeyAt key cs = some (m, rest)) : rest.length < cs.length + 2 := by
  simp only [matchKeyAt] at h
  split at h
  · exact absurd h (by simp)
  · rename_i r2 hs
    split at h
    · rename_i c1 c2 rest2 hm
      split at h
      · injection h with h2
        cases h2
        have h1 := congrArg List.length hm
        have h2 : (r2.dropWhile jsIsSpace).length ≤ r2.length :=
          List.length_dropWhile_le' _ _
        have h3 : r2.length ≤ (cs.dropWhile jsIsSpace).length :=
          stripPrefixChars_length hs
        have h4 : (cs.dropWhile jsIsSpace).length ≤ cs.length :=
          List.length_dropWhile_le' _ _
        simp only [List.length_cons] at h1
        omega
      · exact absurd h (by simp)
    · exact absurd h (by simp)

theorem tryMatchKey_length {key l m rest : List Char}
    (h : tryMatchKey key l = some (m, rest)) : rest.length < l.length := by
  match l with
  | [] => simp [tryMatchKey] at h
  | [c] => simp [tryMatchKey] at h
  | c1 :: c2 :: cs =>
      simp only [tryMatchKey] at h
      by_cases hc : c1 == lbrace && c2 == lbrace
      · simp only [hc, if_pos, Option.map_eq_some'] at h
        obtain ⟨⟨m', rest'⟩, hm, heq⟩ := h
        obtain ⟨-, rfl⟩ := Prod.mk.injEq .. ▸ heq
        have := matchKeyAt_length hm
        simp; omega
      · simp [hc] at h

/-- ECMAScript `GetSubstitution` for a string replacement value and a
pattern with no capture groups (the fill pattern has none): `$$` is a
literal dollar, `$&` the matched text, a dollar followed by a backquote
the part of the pass input before the match, `$` + apostrophe the part
after it, and any other `$` (including `$1`-style references, which
have no group to refer to) is literal. -/
def substDollar (matched before after : List Char) : List Char → List Char
  | [] => []
  | [c] => [c]
  | c :: d :: cs2 =>
      if c == '$' then
        if d == '$' then '$' :: substDollar matched before after cs2
        else if d == '&' then matched ++ substDollar matched before after cs2
        else if d == bquote then before ++ substDollar matched before after cs2
        else if d == apos then after ++ substDollar matched before after cs2
        else c :: d :: substDollar matched before after cs2
        -- d is not a dollar in the last branch, so emitting it directly
        -- and resuming after it is the same as resuming at it
      else c :: substDollar matched before after (d :: cs2)

/-- One `result.replace(regex, value)` pass of `fillTemplate`
(geminiService line 10): scan the pass input left to right; at a match
emit the substituted value and resume after the match, otherwise emit
the character and advance.  `pre` carries the already-scanned part of
the pass input in reverse (the dollar-backquote portion). -/
def fillPassGo (key value : List Char) : Nat → List Char → List Char → List Char
  | _, _, [] => []
  | 0, _, _ :: _ => []
  | fuel + 1, pre, c :: cs =>
      match tryMatchKey key (c :: cs) with
      | some (matched, rest) =>
          substDollar matched pre.reverse rest value ++
            fillPassGo key value fuel (matched.reverse ++ pre) rest
      | none => c :: fillPassGo key value fuel (c :: pre) cs

/-- `new RegExp('{{\\s*' + key + '\\s*}}', 'g')` + `result.replace`.
The scan consumes at least one character per step, so fuel equal to
the input length never runs out (`tryMatchKey_length`). -/
def replaceAllKey (result : String) (key value : String) : String :=
  String.mk (fillPassGo key.data value.data result.data.length [] result.data)

/-- `fillTemplate` (geminiService lines 5-13): one global replace pass
per entry of the `variables` record (`vars` here — `variables` is a
reserved word in Lean), in entry order, each pass acting on the
previous pass's output. -/
def fillTemplate (template : String) (vars : List (String × String)) : String :=
  vars.foldl (fun result kv => replaceAllKey result kv.1 kv.2) template

/-- Modelled from the claim's words (refinement reference, not code):
simultaneous filling — every `{{identifier}}` occurrence of the
original template whose identifier has a supplied value is replaced by
exactly that value; placeholders without a supplied value stay. -/
def claimMatchAt (vars : List (String × String)) : List Char → Option (String × List Char)
  | c1 :: c2 :: cs =>
      if c1 == lbrace && c2 == lbrace then
        match matchVar cs with
        | some (v, rest) =>
            match vars.find? (fun kv => kv.1 == v) with
            | some kv => some (kv.2, rest)
            | none => none
        | none => none
      else none
  | _ => none

theorem claimMatchAt_length {vars : List (String × String)} {l : List Char}
    {val : String} {rest : List Char}
    (h : claimMatchAt vars l = some (val, rest)) : rest.length < l.length := by
  match l with
  | [] => simp [claimMatchAt] at h
  | [c] => simp [claimMatchAt] at h
  | c1 :: c2 :: cs =>
      simp only [claimMatchAt] at h
      split at h
      · split at h
        · rename_i v rest2 hm
          split at h
          · injection h with h2
            cases h2
            have := matchVar_length hm
            simp only [List.length_cons]
            omega
          · exact absurd h (by simp)
        · exact absurd h (by simp)
      · exact absurd h (by simp)

/-- The simultaneous one-pass filling described by the claim (fuel as
in `fillPassGo`: at least one character is consumed per step). -/
def claimFillGo (vars : List (String × String)) : Nat → List Char → List Char
  | _, [] => []
  | 0, _ :: _ => []
  | fuel + 1, c :: cs =>
      match claimMatchAt vars (c :: cs) with
      | some (val, rest) => val.data ++ claimFillGo vars fuel rest
      | none => c :: claimFillGo vars fuel cs

/-- The claim's reading of `fillTemplate`: simultaneous substitution of
every supplied identifier, each occurrence replaced by exactly its
value, unmatched placeholders untouched. -/
def claimFill (template : String) (vars : List (String × String)) : String :=
  String.mk (claimFillGo vars template.data.length template.data)

/-! ## Basic lemmas about the embedded operations -/

theorem normalizeTitle_id (p : JPrompt) : (normalizeTitle p).id = p.id := by
  unfold normalizeTitle; split <;> rfl

theorem normalizeTitle_history (p : JPrompt) : (normalizeTitle p).history = p.history := by
  unfold normalizeTitle; split <;> rfl

theorem normalizeTitle_updatedAt (p : JPrompt) : (normalizeTitle p).updatedAt = p.updatedAt := by
  unfold normalizeTitle; split <;> rfl

theorem migrateOne_id (p : JPrompt) (now : Int) : ((migrateOne p now).1).id = p.id := by
  simp only [migrateOne]
  split_ifs <;> rfl

theorem opt_eq_some_getD {α : Type} {o : Option α} (d : α) (h : ¬o = none) :
    o = some (o.getD d) := by
  cases o with
  | none => exact absurd rfl h
  | some a => rfl

theorem migrateOne_history (p : JPrompt) (now : Int) :
    ((migrateOne p now).1).history = some (p.history.getD []) := by
  simp only [migrateOne]
  split_ifs
  all_goals try simp_all
  all_goals exact opt_eq_some_getD [] (by assumption)

theorem migrateOne_isFavorite (p : JPrompt) (now : Int) :
    ((migrateOne p now).1).isFavorite = some (p.isFavorite.getD false) := by
  simp only [migrateOne]
  split_ifs
  all_goals try simp_all
  all_goals exact opt_eq_some_getD false (by assumption)

theorem migrateOne_changed (p : JPrompt) (now : Int) :
    (migrateOne p now).2 =
      (p.createdAt == 0 || p.history == none || p.isFavorite == none) := by
  simp only [migrateOne]
  split_ifs <;> simp_all

theorem findIndexById_eq_none {pid : String} {l : List JPrompt} :
    findIndexById pid l = none ↔ ∀ p ∈ l, (p.id == pid) = false := by
  induction l with
  | nil => simp [findIndexById]
  | cons q rest ih =>
      simp only [findIndexById, List.mem_cons]
      by_cases hq : (q.id == pid) = true
      · constructor
        · intro h; rw [if_pos hq] at h; exact absurd h (by simp)
        · intro h; exact absurd (h q (Or.inl rfl)) (by simp [hq])
      · rw [if_neg hq]
        simp only [Option.map_eq_none', ih]
        constructor
        · rintro h p (rfl | hp)
          · simpa using hq
          · exact h p hp
        · exact fun h p hp => h p (Or.inr hp)

theorem findIndexById_append_cons {pid : String} {pre post : List JPrompt}
    {cur : JPrompt} (hpre : ∀ p ∈ pre, (p.id == pid) = false)
    (hc : (cur.id == pid) = true) :
    findIndexById pid (pre ++ cur :: post) = some pre.length := by
  induction pre with
  | nil => simp [findIndexById, hc]
  | cons q rest ih =>
      have hq := hpre q (by simp)
      have ih' := ih (fun p hp => hpre p (by simp [hp]))
      simp only [List.cons_append, findIndexById, ih', Option.map_some', List.length_cons]
      rw [if_neg (by simp [hq])]
      simp [List.append_eq, ih']

theorem getElem?_append_cons (pre : List JPrompt) (cur : JPrompt) (post : List JPrompt) :
    (pre ++ cur :: post)[pre.length]? = some cur := by
  induction pre with
  | nil => simp
  | cons q rest ih => simpa using ih

theorem set_append_cons (pre : List JPrompt) (cur x : JPrompt) (post : List JPrompt) :
    (pre ++ cur :: post).set pre.length x = pre ++ x :: post := by
  induction pre with
  | nil => simp
  | cons q rest ih => simpa using ih

/-- `handleSavePrompt` on a fresh id prepends the (title-normalized)
record verbatim. -/
theorem handleSavePrompt_new {prompts : List JPrompt} {up : JPrompt} {now : Int}
    (h : ∀ p ∈ prompts, (p.id == up.id) = false) :
    handleSavePrompt prompts up now = normalizeTitle up :: prompts := by
  unfold handleSavePrompt
  have hn : findIndexById (normalizeTitle up).id prompts = none := by
    rw [normalizeTitle_id]; exact findIndexById_eq_none.mpr h
  simp only [hn]

/-- `handleSavePrompt` on an existing id: the first record with the id
is replaced in place by the incoming record carrying the snapshot
history (capped at 20) and the fresh timestamp. -/
theorem handleSavePrompt_existing {pre post : List JPrompt} {cur up : JPrompt} {now : Int}
    (hpre : ∀ p ∈ pre, (p.id == up.id) = false)
    (hc : (cur.id == up.id) = true) :
    handleSavePrompt (pre ++ cur :: post) up now =
      pre ++
        ({ normalizeTitle up with
            history := some ((snapshotOf cur :: cur.history.getD []).take 20),
            updatedAt := now }) :: post := by
  unfold handleSavePrompt
  have hf : findIndexById (normalizeTitle up).id (pre ++ cur :: post) = some pre.length := by
    rw [normalizeTitle_id]; exact findIndexById_append_cons hpre hc
  simp only [hf, getElem?_append_cons, set_append_cons]

/-- Abbreviation for the per-entry migration result. -/
def mig (now : Int) (p : JPrompt) : JPrompt := (migrateOne p now).1

theorem getStoredPrompts_some (ps : List JPrompt) (now : Int) :
    (getStoredPrompts (some ps) now).prompts = ps.map (mig now) := rfl

/-- `savePrompt` on a fresh id prepends the record verbatim to the
migrated collection. -/
theorem savePrompt_new {ps : List JPrompt} {prompt : JPrompt} {now : Int}
    (h : ∀ p ∈ ps, (p.id == prompt.id) = false) :
    savePrompt (some ps) prompt now = some (prompt :: ps.map (mig now)) := by
  unfold savePrompt
  have hn : findIndexById prompt.id (ps.map (mig now)) = none := by
    refine findIndexById_eq_none.mpr ?_
    intro p hp
    obtain ⟨q, hq, rfl⟩ := List.mem_map.mp hp
    rw [show (mig now q).id = q.id from migrateOne_id q now]
    exact h q hq
  rw [getStoredPrompts_some] at *
  simp only [hn]

/-- `savePrompt` when the saved id sits at the front of the stored
collection (the position every saved record ends up in): snapshot of
the migrated stored record onto its history, capped at 10. -/
theorem savePrompt_front {cur : JPrompt} {rest : List JPrompt} {prompt : JPrompt}
    {now : Int} (hc : (cur.id == prompt.id) = true) :
    savePrompt (some (cur :: rest)) prompt now =
      some
        ({ prompt with
            history :=
              some ((snapshotOf (mig now cur) :: (cur.history.getD [])).take 10),
            updatedAt := now } :: rest.map (mig now)) := by
  unfold savePrompt
  rw [getStoredPrompts_some]
  have hcid : ((mig now cur).id == prompt.id) = true := by
    rw [show (mig now cur).id = cur.id from migrateOne_id cur now]; exact hc
  have hhist : (mig now cur).history = some (cur.history.getD []) :=
    migrateOne_history cur now
  simp only [List.map_cons, findIndexById, hcid, if_pos, List.getElem?_cons_zero,
    List.set_cons_zero, hhist, Option.getD_some]

/-- `handleSavePrompt` when the saved id sits at the front. -/
theorem handleSavePrompt_front {cur : JPrompt} {rest : List JPrompt} {up : JPrompt}
    {now : Int} (hc : (cur.id == up.id) = true) :
    handleSavePrompt (cur :: rest) up now =
      ({ normalizeTitle up with
          history := some ((snapshotOf cur :: cur.history.getD []).take 20),
          updatedAt := now }) :: rest := by
  have h := @handleSavePrompt_existing [] rest cur up now (by simp) hc
  simpa using h

/-- The fold of sequential saves through the App path. -/
def saveChainApp (init : List JPrompt) (inputs : List (JPrompt × Int)) : List JPrompt :=
  inputs.foldl (fun coll ri => handleSavePrompt coll ri.1 ri.2) init

/-- The fold of sequential saves through the storage path. -/
def saveChainStore (store : Store) (inputs : List (JPrompt × Int)) : Store :=
  inputs.foldl (fun st ri => savePrompt st ri.1 ri.2) store

theorem saveChainApp_cons (init : List JPrompt) (ri : JPrompt × Int)
    (inputs : List (JPrompt × Int)) :
    saveChainApp init (ri :: inputs) =
      saveChainApp (handleSavePrompt init ri.1 ri.2) inputs := rfl

theorem saveChainStore_cons (store : Store) (ri : JPrompt × Int)
    (inputs : List (JPrompt × Int)) :
    saveChainStore store (ri :: inputs) =
      saveChainStore (savePrompt store ri.1 ri.2) inputs := rfl

/-- Iterating App-path saves of one id: the record stays at the front
and its history grows by one snapshot per save, capped at 20. -/
theorem saveChainApp_front {id : String} :
    ∀ (inputs : List (JPrompt × Int)) (cur : JPrompt) (rest : List JPrompt),
      cur.id = id → (∀ ri ∈ inputs, ri.1.id = id) →
      (cur.history.getD []).length ≤ 20 →
      ∃ cur' rest', saveChainApp (cur :: rest) inputs = cur' :: rest' ∧
        cur'.id = id ∧
        (cur'.history.getD []).length =
          min ((cur.history.getD []).length + inputs.length) 20 := by
  intro inputs
  induction inputs with
  | nil =>
      intro cur rest hcur _ hlen
      refine ⟨cur, rest, rfl, hcur, ?_⟩
      simp only [List.length_nil, Nat.add_zero]
      omega
  | cons ri ins ih =>
      intro cur rest hcur hin hlen
      have hc : (cur.id == ri.1.id) = true := by
        rw [hcur, hin ri (by simp)]; exact beq_self_eq_true _
      rw [saveChainApp_cons, handleSavePrompt_front hc]
      set cur2 : JPrompt :=
        { normalizeTitle ri.1 with
          history := some ((snapshotOf cur :: cur.history.getD []).take 20),
          updatedAt := ri.2 } with hcur2
      have hid2 : cur2.id = id := by
        rw [hcur2]
        show (normalizeTitle ri.1).id = id
        rw [normalizeTitle_id]; exact hin ri (by simp)
      have hlen2 : (cur2.history.getD []).length =
          min ((cur.history.getD []).length + 1) 20 := by
        rw [hcur2]
        show ((snapshotOf cur :: cur.history.getD []).take 20).length =
          min ((cur.history.getD []).length + 1) 20
        rw [List.length_take, List.length_cons]
        omega
      obtain ⟨cur', rest', heq, hid', hlen'⟩ :=
        ih cur2 rest hid2 (fun x hx => hin x (by simp [hx])) (by omega)
      refine ⟨cur', rest', heq, hid', ?_⟩
      rw [hlen', hlen2]
      simp only [List.length_cons]
      omega

/-- Iterating storage-path saves of one id: same shape, cap 10. -/
theorem saveChainStore_front {id : String} :
    ∀ (inputs : List (JPrompt × Int)) (cur : JPrompt) (rest : List JPrompt),
      cur.id = id → (∀ ri ∈ inputs, ri.1.id = id) →
      (cur.history.getD []).length ≤ 10 →
      ∃ cur' rest', saveChainStore (some (cur :: rest)) inputs = some (cur' :: rest') ∧
        cur'.id = id ∧
        (cur'.history.getD []).length =
          min ((cur.history.getD []).length + inputs.length) 10 := by
  intro inputs
  induction inputs with
  | nil =>
      intro cur rest hcur _ hlen
      refine ⟨cur, rest, rfl, hcur, ?_⟩
      simp only [List.length_nil, Nat.add_zero]
      omega
  | cons ri ins ih =>
      intro cur rest hcur hin hlen
      have hc : (cur.id == ri.1.id) = true := by
        rw [hcur, hin ri (by simp)]; exact beq_self_eq_true _
      rw [saveChainStore_cons, savePrompt_front hc]
      set cur2 : JPrompt :=
        { ri.1 with
          history := some ((snapshotOf (mig ri.2 cur) :: cur.history.getD []).take 10),
          updatedAt := ri.2 } with hcur2
      have hid2 : cur2.id = id := hin ri (by simp)
      have hlen2 : (cur2.history.getD []).length =
          min ((cur.history.getD []).length + 1) 10 := by
        rw [hcur2]
        show ((snapshotOf (mig ri.2 cur) :: cur.history.getD []).take 10).length =
          min ((cur.history.getD []).length + 1) 10
        rw [List.length_take, List.length_cons]
        omega
      obtain ⟨cur', rest', heq, hid', hlen'⟩ :=
        ih cur2 (rest.map (mig ri.2)) hid2 (fun x hx => hin x (by simp [hx])) (by omega)
      refine ⟨cur', rest', heq, hid', ?_⟩
      rw [hlen', hlen2]
      simp only [List.length_cons]
      omega

/-- A minimal well-formed record used for concrete instantiations. -/
def sampleRec (i : String) (t : Int) : JPrompt :=
  { id := i, title := "t", description := "", systemInstruction := "",
    template := "x", tags := [], config := DEFAULT_CONFIG,
    updatedAt := t, createdAt := t, history := some [], isFavorite := some false }

/-- Claim C1, counterexample: the two save call sites use different
caps, so no single documented cap CAP satisfies the claim.  After 12
sequential saves of the same record starting from creation, the App
path (`handleSavePrompt`, cap 20) leaves history length 11 while the
storage path (`savePrompt`, cap 10) leaves history length 10; both
would have to equal `min (12-1) CAP` for the claim's single CAP. -/
theorem historyCap_call_sites_disagree :
    ((saveChainApp []
        (List.replicate 12 (sampleRec "a" 1, (5 : Int)))).head?.map
          (fun p => (p.history.getD []).length) = some 11) ∧
    (((saveChainStore (some [])
        (List.replicate 12 (sampleRec "a" 1, (5 : Int)))).getD
          []).head?.map (fun p => (p.history.getD []).length) = some 10) ∧
    ¬∃ cap : Nat, min 11 cap = 11 ∧ min 11 cap = 10 := by
  refine ⟨by decide, by decide, ?_⟩
  rintro ⟨cap, h1, h2⟩
  omega

/-- Claim C1 (amended): each save path enforces its own cap — 20 in
`handleSavePrompt` (App.tsx) and 10 in `savePrompt` (storageService).
Along either path, after N sequential saves of a record whose first
save is its creation (empty history), the record's history has length
exactly `min (N-1) cap`; and on every save of an existing id the new
history is `(snapshot of the pre-save record :: its old history).take
cap` — the fresh snapshot sits at index 0 (newest-first), the kept
part is a prefix, and truncation drops the oldest entries from the
tail.  (The claim's global `history.length ≤ CAP` invariant holds for
save-produced records but not for imported ones, see C2/C6.) -/
theorem historyCap_per_path :
    (∀ (init : List JPrompt) (first : JPrompt × Int) (ins : List (JPrompt × Int))
        (id : String),
        first.1.id = id → (∀ ri ∈ ins, ri.1.id = id) →
        (∀ p ∈ init, (p.id == id) = false) →
        first.1.history = some [] →
        ∃ cur rest,
          saveChainApp init (first :: ins) = cur :: rest ∧
          (cur :: rest).find? (fun q => q.id == id) = some cur ∧
          (cur.history.getD []).length = min ((first :: ins).length - 1) 20) ∧
    (∀ (init : List JPrompt) (first : JPrompt × Int) (ins : List (JPrompt × Int))
        (id : String),
        first.1.id = id → (∀ ri ∈ ins, ri.1.id = id) →
        (∀ p ∈ init, (p.id == id) = false) →
        first.1.history = some [] →
        ∃ cur rest,
          saveChainStore (some init) (first :: ins) = some (cur :: rest) ∧
          (cur.history.getD []).length = min ((first :: ins).length - 1) 10) ∧
    (∀ (cur : JPrompt) (rest : List JPrompt) (up : JPrompt) (now : Int),
        (cur.id == up.id) = true →
        handleSavePrompt (cur :: rest) up now =
          { normalizeTitle up with
            history := some ((snapshotOf cur :: cur.history.getD []).take 20),
            updatedAt := now } :: rest) := by
  refine ⟨?_, ?_, fun cur rest up now hc => handleSavePrompt_front hc⟩
  · intro init first ins id hfirst hins hinit hhist
    rw [saveChainApp_cons, handleSavePrompt_new (by intro p hp; rw [hfirst]; exact hinit p hp)]
    have hid0 : (normalizeTitle first.1).id = id := by rw [normalizeTitle_id]; exact hfirst
    have hh0 : ((normalizeTitle first.1).history.getD []).length ≤ 20 := by
      rw [normalizeTitle_history, hhist]; simp
    obtain ⟨cur', rest', heq, hid', hlen'⟩ :=
      saveChainApp_front ins (normalizeTitle first.1) init hid0 hins hh0
    refine ⟨cur', rest', heq, ?_, ?_⟩
    · simp [List.find?, hid']
    · rw [hlen']
      rw [normalizeTitle_history, hhist]
      simp
  · intro init first ins id hfirst hins hinit hhist
    rw [saveChainStore_cons,
      savePrompt_new (by intro p hp; rw [hfirst]; exact hinit p hp)]
    have hh0 : ((first.1).history.getD []).length ≤ 10 := by rw [hhist]; simp
    obtain ⟨cur', rest', heq, hid', hlen'⟩ :=
      saveChainStore_front ins first.1 (init.map (mig first.2)) hfirst hins hh0
    refine ⟨cur', rest', heq, ?_⟩
    rw [hlen', hhist]
    simp

/-- Claim C1, witness: the amended App-path statement instantiated at
two concrete saves of a fresh record. -/
theorem historyCap_per_path_witness :
    ∃ cur rest,
      saveChainApp [] [(sampleRec "a" 1, 100), (sampleRec "a" 1, 101)] = cur :: rest ∧
      (cur :: rest).find? (fun q => q.id == "a") = some cur ∧
      (cur.history.getD []).length =
        min (([(sampleRec "a" 1, 100), (sampleRec "a" 1, 101)] : List (JPrompt × Int)).length - 1) 20 :=
  historyCap_per_path.1 [] (sampleRec "a" 1, 100) [(sampleRec "a" 1, 101)] "a"
    rfl (by decide) (by decide) rfl

/-- Claim C4, counterexample: a first-time save (id not yet in the
collection) stores the record verbatim — `updatedAt` keeps the
client-supplied value 5 instead of the save time 100, on both save
paths. -/
theorem new_save_keeps_client_updatedAt :
    ((handleSavePrompt [] (sampleRec "a" 5) 100).head?.map (fun p => p.updatedAt) =
      some 5) ∧
    (((savePrompt (some []) (sampleRec "a" 5) 100).getD []).head?.map
      (fun p => p.updatedAt) = some 5) ∧
    (5 : Int) ≠ 100 := by
  refine ⟨by decide, by decide, by decide⟩

/-- Claim C4 (amended): when the saved id already exists, the stored
record's `updatedAt` is set exactly once to the save time, ignoring the
client-supplied value — on both save paths; but a first-time save
inserts the record verbatim, keeping the client-supplied `updatedAt`
(set by the create/duplicate action at creation time). -/
theorem updatedAt_stamped :
    (∀ (pre post : List JPrompt) (cur up : JPrompt) (now : Int),
        (∀ p ∈ pre, (p.id == up.id) = false) → (cur.id == up.id) = true →
        ∃ saved, handleSavePrompt (pre ++ cur :: post) up now = pre ++ saved :: post ∧
          saved.updatedAt = now) ∧
    (∀ (prompts : List JPrompt) (up : JPrompt) (now : Int),
        (∀ p ∈ prompts, (p.id == up.id) = false) →
        ∃ saved, handleSavePrompt prompts up now = saved :: prompts ∧
          saved.updatedAt = up.updatedAt) ∧
    (∀ (cur : JPrompt) (rest : List JPrompt) (prompt : JPrompt) (now : Int),
        (cur.id == prompt.id) = true →
        ∃ saved rest2, savePrompt (some (cur :: rest)) prompt now =
          some (saved :: rest2) ∧ saved.updatedAt = now) ∧
    (∀ (ps : List JPrompt) (prompt : JPrompt) (now : Int),
        (∀ p ∈ ps, (p.id == prompt.id) = false) →
        savePrompt (some ps) prompt now = some (prompt :: ps.map (mig now))) := by
  refine ⟨?_, ?_, ?_, fun ps prompt now h => savePrompt_new h⟩
  · intro pre post cur up now hpre hc
    exact ⟨_, handleSavePrompt_existing hpre hc, rfl⟩
  · intro prompts up now h
    exact ⟨_, handleSavePrompt_new h, normalizeTitle_updatedAt up⟩
  · intro cur rest prompt now hc
    exact ⟨_, _, savePrompt_front hc, rfl⟩

/-- Claim C4, witness: the amended existing-id statement at a concrete
collection — the overwritten record is stamped with the save time. -/
theorem updatedAt_stamped_witness :
    ∃ saved, handleSavePrompt ([] ++ sampleRec "a" 1 :: []) (sampleRec "a" 2) 100 =
      [] ++ saved :: [] ∧ saved.updatedAt = 100 :=
  updatedAt_stamped.1 [] [] (sampleRec "a" 1) (sampleRec "a" 2) 100
    (by decide) (by decide)

/-- Claim C10: `api.uploadData` always resolves — the internal
`try/catch` swallows every upsert error (including the re-thrown error
object), so no awaiting caller can ever observe a failure through the
returned promise. -/
theorem uploadData_always_resolves :
    ∀ (isCloudEnabled : Bool) (r : UpsertResult),
      uploadData isCloudEnabled r = Except.ok () := by
  intro e r
  cases e <;> cases r <;> rfl

/-- Claim C3: the code contradicts the spec's requirement.  On the
cloud restore path the upload is awaited and the validated import is
persisted locally, but because `uploadData` swallows its own errors
(see C10) the `catch` branch that would surface the failure is
unreachable: with the remote upsert failing, the user still gets the
success alert, and no input can ever produce the failure alert. -/
theorem import_upload_failure_not_surfaced :
    ((handleImport true [] none [sampleRec "a" 1] (.err "network")).2.2 =
        ImportAlert.cloudReplaced 1 ∧
      (handleImport true [] none [sampleRec "a" 1] (.err "network")).2.1 =
        some [sampleRec "a" 1]) ∧
    (∀ (valid : List JPrompt) (r : UpsertResult),
      (handleImport true [] none valid r).2.2 ≠ ImportAlert.cloudFailed) := by
  refine ⟨⟨by decide, rfl⟩, ?_⟩
  intro valid r
  unfold handleImport
  rw [uploadData_always_resolves true r]
  simp

/-- Claim C5: startup reconciliation — one download attempt is made
(the effect runs once on mount); a non-empty downloaded array replaces
both the in-memory state and the local store unconditionally, with no
merge; an absent row (PGRST116), any other error, a non-array value,
an empty array, or disabled cloud leaves the local data untouched. -/
theorem startup_sync_replace_or_keep :
    ∀ (resp : DlResponse) (prompts : List JPrompt) (store : Store),
      (∀ cloudData, downloadData true resp = some (.arr cloudData) →
        cloudData ≠ [] →
        startupSync true resp prompts store = (cloudData, some cloudData)) ∧
      ((downloadData true resp = none ∨ downloadData true resp = some .notArray ∨
          downloadData true resp = some (.arr [])) →
        startupSync true resp prompts store = (prompts, store)) ∧
      (startupSync false resp prompts store = (prompts, store)) ∧
      (downloadData false resp = none) := by
  intro resp prompts store
  refine ⟨?_, ?_, by simp [startupSync], by simp [downloadData]⟩
  · intro cloudData hdl hne
    unfold startupSync
    rw [if_pos rfl, hdl]
    have : cloudData.length > 0 := List.length_pos.mpr hne
    simp [this]
  · intro h
    unfold startupSync
    rw [if_pos rfl]
    rcases h with h | h | h <;> rw [h] <;> simp

/-- Claim C5, witness: a concrete non-empty download replaces state and
store; a concrete failed download keeps them. -/
theorem startup_sync_replace_or_keep_witness :
    startupSync true (.ok (.arr [sampleRec "c" 9])) [sampleRec "a" 1] none =
      ([sampleRec "c" 9], some [sampleRec "c" 9]) ∧
    startupSync true (.errOther "boom") [sampleRec "a" 1] none =
      ([sampleRec "a" 1], none) :=
  ⟨(startup_sync_replace_or_keep (.ok (.arr [sampleRec "c" 9])) [sampleRec "a" 1]
      none).1 [sampleRec "c" 9] rfl (by decide),
   (startup_sync_replace_or_keep (.errOther "boom") [sampleRec "a" 1] none).2.1
      (Or.inl rfl)⟩

/-- Claim C8: opening a record in the (draft-aware) editor initializes
from the cached draft exactly when a draft for the record's id exists
and its `updatedAt` is strictly greater than the canonical record's;
otherwise from the canonical record. -/
theorem editor_draft_precedence :
    ∀ (cache : DraftCache) (initialData draft : JPrompt),
      (getDraft cache initialData.id = some draft →
        (draft.updatedAt > initialData.updatedAt →
          editorStartData cache initialData = draft) ∧
        (¬draft.updatedAt > initialData.updatedAt →
          editorStartData cache initialData = initialData)) ∧
      (getDraft cache initialData.id = none →
        editorStartData cache initialData = initialData) := by
  intro cache initialData draft
  constructor
  · intro hd
    constructor <;> intro hlt <;> unfold editorStartData <;> rw [hd] <;> simp [hlt]
  · intro hd
    unfold editorStartData
    rw [hd]

/-- Claim C8, witness: a strictly newer cached draft wins at a concrete
cache; without a draft the canonical record is used. -/
theorem editor_draft_precedence_witness :
    editorStartData [("a", sampleRec "a" 9)] (sampleRec "a" 1) = sampleRec "a" 9 ∧
    editorStartData [] (sampleRec "a" 1) = sampleRec "a" 1 :=
  ⟨((editor_draft_precedence [("a", sampleRec "a" 9)] (sampleRec "a" 1)
      (sampleRec "a" 9)).1 rfl).1 (by decide),
   (editor_draft_precedence [] (sampleRec "a" 1) (sampleRec "a" 1)).2 rfl⟩

/-- A raw pre-migration entry: absent `createdAt`, `history`, and a
non-boolean `isFavorite`. -/
def rawRec (i : String) (t : Int) : JPrompt :=
  { sampleRec i t with
    createdAt := 0, history := none, isFavorite := none }

theorem migrateOne_createdAt_ne {p : JPrompt} {now : Int} (h : now ≠ 0) :
    ((migrateOne p now).1).createdAt ≠ 0 := by
  simp only [migrateOne]
  split_ifs <;> simp_all

/-- Claim C9: the per-entry load migration is idempotent (for a real
clock value, `Date.now() > 0`): a migrated entry has a non-zero
`createdAt`, a present `history` and a boolean `isFavorite`, so a
second migration changes nothing and reports no change; and the load
writes the migrated collection back exactly when at least one entry's
migration reported a change. -/
theorem migration_idempotent_and_writeback :
    (∀ (p : JPrompt) (now now2 : Int), 0 < now →
        migrateOne ((migrateOne p now).1) now2 = ((migrateOne p now).1, false)) ∧
    (∀ (ps : List JPrompt) (now : Int),
        (ps.any (fun p => (migrateOne p now).2) = true →
          (getStoredPrompts (some ps) now).store = some (ps.map (mig now))) ∧
        (ps.any (fun p => (migrateOne p now).2) = false →
          (getStoredPrompts (some ps) now).store = some ps) ∧
        (getStoredPrompts (some ps) now).prompts = ps.map (mig now)) := by
  constructor
  · intro p now now2 hpos
    have hc : (((migrateOne p now).1).createdAt == 0) = false := by
      simp only [beq_eq_false_iff_ne, ne_eq]
      exact migrateOne_createdAt_ne (by omega)
    have hh : (((migrateOne p now).1).history == none) = false := by
      rw [migrateOne_history]; rfl
    have hf : (((migrateOne p now).1).isFavorite == none) = false := by
      rw [migrateOne_isFavorite]; rfl
    conv_lhs => rw [migrateOne]
    simp only [hc, hh, hf, Bool.false_eq_true, if_false, Bool.or_self]
  · intro ps now
    refine ⟨?_, ?_, rfl⟩ <;> intro h <;>
      simp only [getStoredPrompts, migrateAll, h, if_pos, if_neg, Bool.false_eq_true] <;>
      rfl

/-- Claim C9, witness: a raw entry missing `createdAt`, `history` and a
boolean `isFavorite` is fully normalized by one migration and untouched
by a second; the load at that entry re-persists the migrated list. -/
theorem migration_idempotent_and_writeback_witness :
    migrateOne ((migrateOne (rawRec "a" 5) 7).1) 9 =
      ((migrateOne (rawRec "a" 5) 7).1, false) :=
  migration_idempotent_and_writeback.1 (rawRec "a" 5) 7 9 (by omega)

/-- A history entry whose own history field is empty or absent. -/
def snapOk (s : Snap) : Prop := s.nestedHistory = none ∨ s.nestedHistory = some 0

instance : DecidablePred snapOk := fun s => by unfold snapOk; infer_instance

/-- The claimed invariant: every entry inside any record's history has
an empty or absent history field of its own. -/
def noNestedHistory (coll : List JPrompt) : Prop :=
  ∀ p ∈ coll, ∀ s ∈ p.history.getD [], snapOk s

instance : DecidablePred noNestedHistory := fun coll => by
  unfold noNestedHistory; infer_instance

theorem mem_handleSavePrompt {coll : List JPrompt} {up : JPrompt} {now : Int}
    {q : JPrompt} (hq : q ∈ handleSavePrompt coll up now) :
    q ∈ coll ∨ q = normalizeTitle up ∨
      ∃ cur ∈ coll,
        q = { normalizeTitle up with
              history := some ((snapshotOf cur :: cur.history.getD []).take 20),
              updatedAt := now } := by
  simp only [handleSavePrompt] at hq
  split at hq
  · split at hq
    · rename_i index hidx cur hcur
      rcases List.mem_or_eq_of_mem_set hq with h | h
      · exact Or.inl h
      · exact Or.inr (Or.inr ⟨cur, List.getElem?_mem hcur, h⟩)
    · exact Or.inl hq
  · rcases List.mem_cons.mp hq with h | h
    · exact Or.inr (Or.inl h)
    · exact Or.inl h

theorem mem_handleReorderPrompts {coll subset : List JPrompt} {q : JPrompt}
    (hq : q ∈ handleReorderPrompts coll subset) :
    ∃ p ∈ coll, q.history = p.history := by
  unfold handleReorderPrompts at hq
  obtain ⟨p, hp, hqe⟩ := List.mem_map.mp hq
  refine ⟨p, hp, ?_⟩
  subst hqe
  split <;> rfl

/-- Preservation of the invariant by one save, provided the incoming
record's own history entries are clean (they are: the editor's record
is either freshly created with empty history or taken from the
collection). -/
theorem noNested_save {coll : List JPrompt} {up : JPrompt} {now : Int}
    (hcoll : noNestedHistory coll) (hup : ∀ s ∈ up.history.getD [], snapOk s) :
    noNestedHistory (handleSavePrompt coll up now) := by
  intro q hq s hs
  rcases mem_handleSavePrompt hq with h | h | ⟨cur, hcur, h⟩
  · exact hcoll q h s hs
  · subst h
    rw [normalizeTitle_history] at hs
    exact hup s hs
  · subst h
    have hs' : s ∈ (snapshotOf cur :: cur.history.getD []).take 20 := hs
    have hs2 := List.take_subset 20 _ hs'
    rcases List.mem_cons.mp hs2 with h1 | h1
    · subst h1; exact Or.inl rfl
    · exact hcoll cur hcur s h1

/-- The operations of the claim's list that the collection state goes
through, excluding import (create, edit-save, favorite toggle and
mark-as-used all run `handleSavePrompt`; load runs the migration). -/
inductive AppStep (now : Int) : List JPrompt → List JPrompt → Prop where
  | save (coll : List JPrompt) (up : JPrompt)
      (hup : ∀ s ∈ up.history.getD [], snapOk s) :
      AppStep now coll (handleSavePrompt coll up now)
  | toggleFavorite (coll : List JPrompt) (p : JPrompt) (hp : p ∈ coll) :
      AppStep now coll (handleToggleFavorite coll p now)
  | markAsUsed (coll : List JPrompt) (p : JPrompt) (hp : p ∈ coll) :
      AppStep now coll (handleMarkAsUsed coll p now)
  | delete (coll : List JPrompt) (id : String) :
      AppStep now coll (handleDeletePrompt coll id)
  | duplicate (coll : List JPrompt) (p : JPrompt) (newId : String) (hp : p ∈ coll) :
      AppStep now coll (handleDuplicatePrompt p newId now :: coll)
  | reorder (coll subset : List JPrompt) :
      AppStep now coll (handleReorderPrompts coll subset)
  | migrate (coll : List JPrompt) :
      AppStep now coll ((migrateAll coll now).1)

/-- A history entry carrying its own non-empty (length 3) history
field, as arbitrary JSON can produce. -/
def badSnap : Snap :=
  { id := "b", title := "t", description := "", systemInstruction := "",
    template := "x", tags := [], config := DEFAULT_CONFIG, updatedAt := 5,
    createdAt := 5, isFavorite := some false, nestedHistory := some 3 }

/-- An importable record whose single history entry itself has a
non-empty history field; it passes both import validations (id, title
and template all non-empty, history present). -/
def badImport : JPrompt := { sampleRec "b" 5 with history := some [badSnap] }

/-- Claim C2, counterexample: neither import path nor the load
migration strips nested history inside entries — they only backfill a
missing top-level `history` field — so importing (merge or replace
mode) or loading a record whose history entries carry their own
non-empty history violates the invariant. -/
theorem import_breaks_noNestedHistory :
    ¬ noNestedHistory (handleImportMerge [] [badImport] 7).1 ∧
    ¬ noNestedHistory (handleImport false [] none [badImport] .ok).1 ∧
    ¬ noNestedHistory (getStoredPrompts (some [badImport]) 7).prompts := by
  refine ⟨by decide, by decide, by decide⟩

/-- Claim C2 (amended): the invariant "every entry inside any record's
history has an empty or absent history field" is preserved by create,
save, favorite toggle, mark-as-used, delete, duplicate, reorder and
the load migration (given the incoming record of a save has clean
history entries, which holds for records taken from the collection or
freshly created); the snapshot pushed on save is the prior record
value with its history field stripped.  It is NOT enforced by
the import paths, which accept arbitrary nested history (see the
counterexample). -/
theorem noNestedHistory_preserved :
    (∀ (now : Int) (coll coll' : List JPrompt),
        noNestedHistory coll → AppStep now coll coll' → noNestedHistory coll') ∧
    (∀ (cur : JPrompt) (rest : List JPrompt) (up : JPrompt) (now : Int),
        (cur.id == up.id) = true →
        ∃ saved rest', handleSavePrompt (cur :: rest) up now = saved :: rest' ∧
          saved.history = some ((snapshotOf cur :: cur.history.getD []).take 20) ∧
          (snapshotOf cur).nestedHistory = none) := by
  constructor
  · intro now coll coll' hcoll hstep
    cases hstep with
    | save up hup => exact noNested_save hcoll hup
    | toggleFavorite p hp =>
        exact noNested_save hcoll (fun s hs => hcoll p hp s hs)
    | markAsUsed p hp =>
        exact noNested_save hcoll (fun s hs => hcoll p hp s hs)
    | delete id =>
        intro q hq s hs
        exact hcoll q (List.mem_of_mem_filter hq) s hs
    | duplicate p newId hp =>
        intro q hq s hs
        rcases List.mem_cons.mp hq with h | h
        · subst h
          simp only [handleDuplicatePrompt] at hs
          exact absurd hs (by simp)
        · exact hcoll q h s hs
    | reorder subset =>
        intro q hq s hs
        obtain ⟨p, hp, hhist⟩ := mem_handleReorderPrompts hq
        rw [hhist] at hs
        exact hcoll p hp s hs
    | migrate =>
        intro q hq s hs
        obtain ⟨p, hp, rfl⟩ := List.mem_map.mp hq
        rw [show ((migrateOne p now).1).history = some (p.history.getD []) from
          migrateOne_history p now] at hs
        simp only [Option.getD_some] at hs
        exact hcoll p hp s hs
  · intro cur rest up now hc
    exact ⟨_, _, handleSavePrompt_front hc, rfl, rfl⟩

/-- Claim C2, witness: the preservation statement applied to a concrete
save of a clean record over a clean collection. -/
theorem noNestedHistory_preserved_witness :
    noNestedHistory (handleSavePrompt [sampleRec "a" 1] (sampleRec "a" 2) 100) :=
  noNestedHistory_preserved.1 100 [sampleRec "a" 1] _ (by decide)
    (AppStep.save [sampleRec "a" 1] (sampleRec "a" 2) (by decide))

/-! ## Lemmas for the merge-mode import -/

/-- Lookup in a collection by record id (`promptMap.get`-like view of
the entry list). -/
def findById (coll : List JPrompt) (pid : String) : Option JPrompt :=
  coll.find? (fun p => p.id == pid)

theorem findById_cons (q : JPrompt) (m : List JPrompt) (pid : String) :
    findById (q :: m) pid =
      if (q.id == pid) = true then some q else findById m pid := by
  unfold findById
  rw [List.find?_cons]
  by_cases h : (q.id == pid) = true
  · rw [if_pos h]; simp only [h]
  · rw [if_neg h]
    have h' : (q.id == pid) = false := by simpa using h
    simp only [h']

theorem importBackfill_id (p : JPrompt) (now : Int) :
    (importBackfill p now).id = p.id := by
  simp only [importBackfill]
  split_ifs <;> rfl

theorem findById_map_replace {m : List JPrompt} {p : JPrompt} {pid : String}
    (hp : (p.id == pid) = false) :
    findById (m.map (fun q => if q.id == p.id then p else q)) pid =
      findById m pid := by
  induction m with
  | nil => rfl
  | cons q m' ih =>
      simp only [List.map_cons]
      by_cases hq : (q.id == p.id) = true
      · rw [if_pos hq, findById_cons, findById_cons, if_neg (by simp [hp]), ih]
        have : (q.id == pid) = false := by
          have h1 : q.id = p.id := eq_of_beq hq
          rw [h1]; exact hp
        rw [if_neg (by simp [this])]
      · rw [if_neg hq, findById_cons, findById_cons, ih]

theorem findById_map_replace_hit {m : List JPrompt} {p : JPrompt} {pid : String}
    (hp : (p.id == pid) = true) (hany : (m.any (fun q => q.id == p.id)) = true) :
    findById (m.map (fun q => if q.id == p.id then p else q)) pid = some p := by
  induction m with
  | nil => simp at hany
  | cons q m' ih =>
      simp only [List.any_cons, Bool.or_eq_true] at hany
      simp only [List.map_cons]
      by_cases hq : (q.id == p.id) = true
      · rw [if_pos hq, findById_cons, if_pos hp]
      · rw [if_neg hq, findById_cons, if_neg ?hqid]
        case hqid =>
          intro hqp
          exact hq (by rw [show pid = p.id from (eq_of_beq hp).symm] at hqp; exact hqp)
        exact ih (hany.resolve_left hq)

theorem findById_mapSet {m : List JPrompt} {p : JPrompt} {pid : String} :
    findById (mapSet m p) pid =
      if (p.id == pid) = true then some p else findById m pid := by
  unfold mapSet
  by_cases hany : (m.any (fun q => q.id == p.id)) = true
  · rw [if_pos hany]
    by_cases hp : (p.id == pid) = true
    · rw [if_pos hp, findById_map_replace_hit hp hany]
    · rw [if_neg hp, findById_map_replace (Bool.not_eq_true _ ▸ hp)]
  · rw [if_neg hany]
    unfold findById
    rw [List.find?_append]
    by_cases hp : (p.id == pid) = true
    · rw [if_pos hp]
      have hmnone : m.find? (fun q => q.id == pid) = none := by
        rw [List.find?_eq_none]
        intro q hq
        have hany' : (m.any (fun r => r.id == p.id)) = false := by simpa using hany
        have hfalse := List.any_eq_false.mp hany' q hq
        rw [← eq_of_beq hp]
        simpa using hfalse
      rw [hmnone]
      simp only [Option.none_or, List.find?_cons, hp]
    · rw [if_neg hp]
      have hp' : (p.id == pid) = false := by simpa using hp
      have hnil : List.find? (fun q => q.id == pid) [p] = none := by
        rw [List.find?_cons]
        simp only [hp', List.find?_nil]
      rw [hnil, Option.or_none]

theorem getLast?_cons' (x : JPrompt) (l : List JPrompt) :
    (x :: l).getLast? = some (l.getLast?.getD x) := by
  cases l with
  | nil => rfl
  | cons y ys =>
      rw [List.getLast?_cons_cons]
      cases h : (y :: ys).getLast? with
      | none => exact absurd h (by simp [List.getLast?_isSome])
      | some z => rfl

theorem getLast?_eq_none_iff {l : List JPrompt} : l.getLast? = none ↔ l = [] := by
  cases l with
  | nil => simp
  | cons x xs => rw [getLast?_cons']; simp

/-- Lookup after folding validated, transformed entries into the map:
the value for an id is the transform of the last matching input entry,
else whatever the starting map holds. -/
theorem findById_foldl_mapSet (valid : JPrompt → Bool) (tf : JPrompt → JPrompt)
    (htf : ∀ p, (tf p).id = p.id) (pid : String) :
    ∀ (l m : List JPrompt),
      findById
        (l.foldl (fun acc p => if valid p then mapSet acc (tf p) else acc) m) pid =
        match (l.filter (fun p => valid p && p.id == pid)).getLast? with
        | some q => some (tf q)
        | none => findById m pid := by
  intro l
  induction l with
  | nil => intro m; rfl
  | cons x xs ih =>
      intro m
      rw [List.foldl_cons, ih, List.filter_cons]
      by_cases hc : (valid x && (x.id == pid)) = true
      · rw [if_pos hc, getLast?_cons']
        cases hlast : (List.filter (fun p => valid p && p.id == pid) xs).getLast? with
        | some q => rfl
        | none =>
            have hv := (Bool.and_eq_true _ _).mp hc
            simp only [Option.getD_none]
            rw [if_pos hv.1, findById_mapSet]
            rw [if_pos (show ((tf x).id == pid) = true from htf x ▸ hv.2)]
        
      · rw [if_neg hc]
        cases hlast : (List.filter (fun p => valid p && p.id == pid) xs).getLast? with
        | some q => rfl
        | none =>
            by_cases hv : valid x = true
            · have hid : (x.id == pid) = false := by
                rcases Bool.eq_false_or_eq_true (x.id == pid) with h | h
                · exact absurd (by rw [hv, h]; rfl) hc
                · exact h
              rw [if_pos hv, findById_mapSet,
                if_neg (show ¬((tf x).id == pid) = true by rw [htf x, hid]; simp)]
            · rw [if_neg hv]

theorem insertByUpdated_perm (p : JPrompt) (l : List JPrompt) :
    List.Perm (insertByUpdated p l) (p :: l) := by
  induction l with
  | nil => exact List.Perm.refl _
  | cons q qs ih =>
      unfold insertByUpdated
      split
      · exact List.Perm.refl _
      · exact (ih.cons q).trans (List.Perm.swap p q qs)

theorem sortByUpdatedDesc_perm (l : List JPrompt) :
    List.Perm (sortByUpdatedDesc l) l := by
  induction l with
  | nil => exact List.Perm.refl _
  | cons x xs ih =>
      unfold sortByUpdatedDesc
      rw [List.foldr_cons]
      exact (insertByUpdated_perm x _).trans (ih.cons x)

theorem insertByUpdated_sorted {l : List JPrompt} (p : JPrompt)
    (hl : List.Sorted (fun a b : JPrompt => b.updatedAt ≤ a.updatedAt) l) :
    List.Sorted (fun a b : JPrompt => b.updatedAt ≤ a.updatedAt)
      (insertByUpdated p l) := by
  induction l with
  | nil => simp [insertByUpdated]
  | cons q qs ih =>
      rw [List.sorted_cons] at hl
      obtain ⟨hq, hqs⟩ := hl
      unfold insertByUpdated
      split
      · rename_i hle
        rw [List.sorted_cons]
        refine ⟨?_, by rw [List.sorted_cons]; exact ⟨hq, hqs⟩⟩
        intro b hb
        rcases List.mem_cons.mp hb with rfl | hb2
        · exact hle
        · exact le_trans (hq b hb2) hle
      · rename_i hgt
        rw [List.sorted_cons]
        refine ⟨?_, ih hqs⟩
        intro b hb
        have hb2 := (insertByUpdated_perm p qs).mem_iff.mp hb
        rcases List.mem_cons.mp hb2 with rfl | hb3
        · omega
        · exact hq b hb3

theorem sortByUpdatedDesc_sorted (l : List JPrompt) :
    List.Sorted (fun a b : JPrompt => b.updatedAt ≤ a.updatedAt)
      (sortByUpdatedDesc l) := by
  induction l with
  | nil => simp [sortByUpdatedDesc]
  | cons x xs ih =>
      unfold sortByUpdatedDesc
      rw [List.foldr_cons]
      exact insertByUpdated_sorted x ih

/-- Claim C6, counterexample: merge-mode validation requires a truthy
`title` as well (`p.id && p.title && p.template`), not only an id and
a non-empty body field — an imported entry with a non-empty id and
template but an empty title is silently dropped. -/
theorem merge_import_requires_title :
    (handleImportMerge [] [{ sampleRec "a" 5 with title := "" }] 7).1 = [] ∧
    jsTruthy ({ sampleRec "a" 5 with title := "" }).id = true ∧
    jsTruthy ({ sampleRec "a" 5 with title := "" }).template = true := by
  exact ⟨rfl, rfl, rfl⟩

/-- Claim C6 (amended): merge-mode import builds the id→record map of
the current collection (JS `Map`: insertion order, replace-in-place),
overlays each imported entry that passes validation — which requires a
truthy `id`, `title` AND `template` — backfilled (`createdAt` from
`updatedAt` or now, `history` to empty, `isFavorite` to boolean)
before insertion, with the imported record winning entirely on id
collision and new ids appended; the result is the stable sort of the
map's values by `updatedAt` descending.  Lookup law: the record stored
for an id is the backfilled LAST valid imported entry with that id,
else the last current entry with that id. -/
theorem merge_import_spec :
    ∀ (current imported : List JPrompt) (now : Int),
      List.Sorted (fun a b : JPrompt => b.updatedAt ≤ a.updatedAt)
        (handleImportMerge current imported now).1 ∧
      List.Perm (handleImportMerge current imported now).1
        (mergeMap current imported now) ∧
      (∀ pid,
        findById (mergeMap current imported now) pid =
          match (imported.filter
              (fun p => validMergeEntry p && p.id == pid)).getLast? with
          | some q => some (importBackfill q now)
          | none => (current.filter (fun p => p.id == pid)).getLast?) ∧
      (handleImportMerge current imported now).2.1 =
        some (handleImportMerge current imported now).1 ∧
      (handleImportMerge current imported now).2.2 =
        ImportAlert.merged imported.length := by
  intro current imported now
  refine ⟨sortByUpdatedDesc_sorted _, sortByUpdatedDesc_perm _, ?_, rfl, rfl⟩
  intro pid
  have h1 : findById (mergeMap current imported now) pid =
      match (imported.filter
          (fun p => validMergeEntry p && p.id == pid)).getLast? with
      | some q => some (importBackfill q now)
      | none => findById (current.foldl mapSet []) pid :=
    findById_foldl_mapSet validMergeEntry (fun p => importBackfill p now)
      (fun p => importBackfill_id p now) pid imported (current.foldl mapSet [])
  have h2 : findById (current.foldl mapSet []) pid =
      match (current.filter (fun p => p.id == pid)).getLast? with
      | some q => some q
      | none => (none : Option JPrompt) :=
    findById_foldl_mapSet (fun _ => true) id (fun p => rfl) pid current []
  have h3 : ∀ o : Option JPrompt,
      (match o with | some q => some q | none => (none : Option JPrompt)) = o := by
    intro o; cases o <;> rfl
  rw [h1, h2, h3]

/-! ## Lemmas for variable extraction (C7) -/

theorem firstDedup_mem : ∀ (l : List String) (v : String),
    v ∈ firstDedup l ↔ v ∈ l
  | [], v => by simp [firstDedup]
  | s :: ss, v => by
      rw [firstDedup]
      by_cases hv : v = s
      · subst hv; simp
      · simp only [List.mem_cons, hv, false_or]
        rw [firstDedup_mem (ss.filter (fun t => t != s)) v]
        simp [List.mem_filter, hv]
termination_by l => l.length
decreasing_by
  simp only [List.length_cons]
  have := List.length_filter_le (fun t => t != s) ss
  omega

theorem firstDedup_nodup : ∀ (l : List String), (firstDedup l).Nodup
  | [] => by simp [firstDedup]
  | s :: ss => by
      rw [firstDedup]
      refine List.nodup_cons.mpr ⟨?_, firstDedup_nodup (ss.filter (fun t => t != s))⟩
      intro hmem
      have := (firstDedup_mem _ s).mp hmem
      simp [List.mem_filter] at this
termination_by l => l.length
decreasing_by
  all_goals simp only [List.length_cons]
  all_goals have := List.length_filter_le (fun t => t != s) ss
  all_goals omega

theorem firstDedup_sublist : ∀ (l : List String), List.Sublist (firstDedup l) l
  | [] => by simp [firstDedup]
  | s :: ss => by
      rw [firstDedup]
      exact List.Sublist.cons₂ s
        ((firstDedup_sublist (ss.filter (fun t => t != s))).trans (List.filter_sublist ss))
termination_by l => l.length
decreasing_by
  simp only [List.length_cons]
  have := List.length_filter_le (fun t => t != s) ss
  omega

/-- Relative order of first occurrences survives filtering, for
elements the filter keeps. -/
theorem indexOf_filter_lt {p : String → Bool} {u v : String}
    (hu : p u = true) (hv : p v = true) :
    ∀ (l : List String),
      (l.filter p).indexOf u < (l.filter p).indexOf v → l.indexOf u < l.indexOf v := by
  intro l
  induction l with
  | nil => simp
  | cons x xs ih =>
      rw [List.filter_cons]
      by_cases hx : p x = true
      · rw [if_pos hx]
        by_cases hux : u = x
        · subst hux
          intro h
          rw [List.indexOf_cons_self]
          have hvx : v ≠ u := by
            intro hvu; subst hvu; simp at h
          rw [List.indexOf_cons_ne _ (fun hh => hvx hh.symm)]
          omega
        · by_cases hvx : v = x
          · subst hvx
            intro h
            rw [List.indexOf_cons_self] at h
            omega
          · intro h
            rw [List.indexOf_cons_ne _ (fun hh => hux hh.symm),
              List.indexOf_cons_ne _ (fun hh => hvx hh.symm)] at h
            rw [List.indexOf_cons_ne _ (fun hh => hux hh.symm),
              List.indexOf_cons_ne _ (fun hh => hvx hh.symm)]
            have := ih (by omega)
            omega
      · rw [if_neg hx]
        intro h
        have hux : u ≠ x := by intro hh; subst hh; exact hx hu
        have hvx : v ≠ x := by intro hh; subst hh; exact hx hv
        rw [List.indexOf_cons_ne _ (fun hh => hux hh.symm),
          List.indexOf_cons_ne _ (fun hh => hvx hh.symm)]
        have := ih h
        omega

/-- The deduplicated list is strictly increasing in first-occurrence
index: first-appearance order. -/
theorem firstDedup_pairwise : ∀ (l : List String),
    (firstDedup l).Pairwise (fun u v => l.indexOf u < l.indexOf v)
  | [] => by simp [firstDedup]
  | s :: ss => by
      rw [firstDedup]
      refine List.pairwise_cons.mpr ⟨?_, ?_⟩
      · intro v hv
        have hv' := (firstDedup_mem _ v).mp hv
        simp only [List.mem_filter, bne_iff_ne, ne_eq] at hv'
        rw [List.indexOf_cons_self, List.indexOf_cons_ne _ (fun hh => hv'.2 hh.symm)]
        omega
      · have ihp := firstDedup_pairwise (ss.filter (fun t => t != s))
        refine ihp.imp_of_mem ?_
        intro u v hu hv huv
        have hu' := (firstDedup_mem _ u).mp hu
        have hv' := (firstDedup_mem _ v).mp hv
        simp only [List.mem_filter, bne_iff_ne, ne_eq] at hu' hv'
        have hmono := indexOf_filter_lt (p := fun t => t != s)
          (by simp [hu'.2]) (by simp [hv'.2]) ss huv
        rw [List.indexOf_cons_ne _ (fun hh => hu'.2 hh.symm),
          List.indexOf_cons_ne _ (fun hh => hv'.2 hh.symm)]
        omega
termination_by l => l.length
decreasing_by
  all_goals simp only [List.length_cons]
  all_goals have := List.length_filter_le (fun t => t != s) ss
  all_goals omega

/-! ## Lemmas for template filling (C7) -/

theorem substDollar_no_dollar :
    ∀ (vdata : List Char), (∀ c ∈ vdata, (c == '$') = false) →
      ∀ (matched before after : List Char),
        substDollar matched before after vdata = vdata
  | [], _, m, b, a => rfl
  | [c], _, m, b, a => rfl
  | c :: d :: cs2, hv, m, b, a => by
      have hc := hv c (by simp)
      simp only [substDollar, hc, Bool.false_eq_true, if_false]
      rw [substDollar_no_dollar (d :: cs2) (fun e he => hv e (by simp [he])) m b a]

theorem stripPrefixChars_eq : ∀ {k cs r : List Char},
    stripPrefixChars k cs = some r → cs = k ++ r := by
  intro k
  induction k with
  | nil =>
      intro cs r h
      simp only [stripPrefixChars, Option.some.injEq] at h
      subst h; rfl
  | cons a ks ih =>
      intro cs r h
      match cs with
      | [] => simp [stripPrefixChars] at h
      | c :: cs' =>
          simp only [stripPrefixChars] at h
          by_cases hc : (c == a) = true
          · rw [if_pos hc] at h
            have := ih h
            rw [eq_of_beq hc, this]
            rfl
          · rw [if_neg hc] at h
            exact absurd h (by simp)

theorem stripPrefixChars_self : ∀ (k r : List Char),
    stripPrefixChars k (k ++ r) = some r := by
  intro k
  induction k with
  | nil => intro r; rfl
  | cons a ks ih =>
      intro r
      simp only [List.cons_append, stripPrefixChars, beq_self_eq_true, if_pos]
      exact ih r

theorem jsIsSpace_not_ident {c : Char} (h : jsIsSpace c = true) :
    isIdentChar c = false := by
  simp only [jsIsSpace, Bool.or_eq_true, beq_iff_eq, Bool.and_eq_true,
    decide_eq_true_eq] at h
  simp only [isIdentChar, Bool.or_eq_false_iff, Bool.and_eq_false_iff, beq_eq_false_iff_ne,
    ne_eq, decide_eq_false_iff_not, not_le]
  omega

theorem rbrace_not_ident : isIdentChar rbrace = false := by decide

theorem head_not_ident_of_brace {r2 rest : List Char}
    (h : r2.dropWhile jsIsSpace = rbrace :: rest) :
    ∀ c, r2.head? = some c → isIdentChar c = false := by
  intro c hc
  cases r2 with
  | nil => simp at hc
  | cons c0 r2' =>
      simp only [List.head?_cons, Option.some.injEq] at hc
      rw [← hc]
      rw [List.dropWhile_cons] at h
      by_cases hs : jsIsSpace c0 = true
      · exact jsIsSpace_not_ident hs
      · rw [if_neg hs] at h
        cases h
        exact rbrace_not_ident

theorem takeWhile_ident_append {key : List Char}
    (hk : ∀ c ∈ key, isIdentChar c = true) :
    ∀ {r2 : List Char}, (∀ c, r2.head? = some c → isIdentChar c = false) →
      (key ++ r2).takeWhile isIdentChar = key ∧
      (key ++ r2).dropWhile isIdentChar = r2 := by
  induction key with
  | nil =>
      intro r2 hr
      cases r2 with
      | nil => exact ⟨rfl, rfl⟩
      | cons c r2' =>
          have hc := hr c (by simp)
          rw [List.nil_append, List.takeWhile_cons, List.dropWhile_cons]
          simp [hc]
  | cons a ks ih =>
      intro r2 hr
      have ha := hk a (by simp)
      rw [List.cons_append, List.takeWhile_cons, List.dropWhile_cons]
      have ⟨h1, h2⟩ := ih (fun c hc => hk c (by simp [hc])) hr
      simp [ha, h1, h2]

theorem matchKeyAt_iff_matchVar {key : List Char} (hk1 : key ≠ [])
    (hk2 : ∀ c ∈ key, isIdentChar c = true) (cs rest : List Char) :
    (∃ m, matchKeyAt key cs = some (m, rest)) ↔
      matchVar cs = some (String.mk key, rest) := by
  have hke : key.isEmpty = false := by
    cases key with
    | nil => exact absurd rfl hk1
    | cons a ks => rfl
  constructor
  · rintro ⟨m, hm⟩
    simp only [matchKeyAt] at hm
    split at hm
    · exact absurd hm (by simp)
    · rename_i r2 hs
      split at hm
      · rename_i c1 c2 rest2 hbr
        split at hm
        · rename_i hcc
          injection hm with hm2
          rw [Prod.mk.injEq] at hm2
          obtain ⟨-, hrr⟩ := hm2
          subst hrr
          obtain ⟨hcc1, hcc2⟩ := (Bool.and_eq_true _ _).mp hcc
          have hc1 : c1 = rbrace := eq_of_beq hcc1
          have hc2 : c2 = rbrace := eq_of_beq hcc2
          subst hc1; subst hc2
          have hr1 := stripPrefixChars_eq hs
          have hhead := head_not_ident_of_brace hbr
          obtain ⟨htw, hdw⟩ := takeWhile_ident_append hk2 hhead
          simp only [matchVar, hr1, htw, hdw, hbr, hke]
          simp
        · exact absurd hm (by simp)
      · exact absurd hm (by simp)
  · intro hv
    simp only [matchVar] at hv
    split at hv
    · rename_i c1 c2 rest2 hbr
      split at hv
      · rename_i hcc
        injection hv with hv2
        rw [Prod.mk.injEq] at hv2
        obtain ⟨hvs, hrr⟩ := hv2
        subst hrr
        have htw : (cs.dropWhile jsIsSpace).takeWhile isIdentChar = key :=
          congrArg String.data hvs
        simp only [Bool.and_eq_true] at hcc
        obtain ⟨⟨-, hcc1⟩, hcc2⟩ := hcc
        have hc1 : c1 = rbrace := eq_of_beq hcc1
        have hc2 : c2 = rbrace := eq_of_beq hcc2
        subst hc1; subst hc2
        have hsplit : cs.dropWhile jsIsSpace =
            key ++ (cs.dropWhile jsIsSpace).dropWhile isIdentChar := by
          conv_lhs => rw [← List.takeWhile_append_dropWhile isIdentChar
            (cs.dropWhile jsIsSpace)]
          rw [htw]
        refine ⟨cs.takeWhile jsIsSpace ++ key ++
          ((cs.dropWhile jsIsSpace).dropWhile isIdentChar).takeWhile jsIsSpace ++
          [rbrace, rbrace], ?_⟩
        simp only [matchKeyAt]
        rw [show stripPrefixChars key (cs.dropWhile jsIsSpace) =
            some ((cs.dropWhile jsIsSpace).dropWhile isIdentChar) by
          conv_lhs => rw [hsplit]
          exact stripPrefixChars_self key _]
        simp [hbr]
      · exact absurd hv (by simp)
    · exact absurd hv (by simp)

theorem tryMatchKey_iff_claimMatchAt {key : List Char} {v : String} (hk1 : key ≠ [])
    (hk2 : ∀ c ∈ key, isIdentChar c = true) (l rest : List Char) :
    (∃ m, tryMatchKey key l = some (m, rest)) ↔
      claimMatchAt [(String.mk key, v)] l = some (v, rest) := by
  match l with
  | [] => simp [tryMatchKey, claimMatchAt]
  | [c] => simp [tryMatchKey, claimMatchAt]
  | c1 :: c2 :: cs =>
      simp only [tryMatchKey, claimMatchAt]
      by_cases hbb : (c1 == lbrace && c2 == lbrace) = true
      · rw [if_pos hbb, if_pos hbb]
        constructor
        · rintro ⟨m, hm⟩
          rw [Option.map_eq_some'] at hm
          obtain ⟨⟨m', rest'⟩, hm1, hm2⟩ := hm
          rw [Prod.mk.injEq] at hm2
          obtain ⟨-, hrr⟩ := hm2
          subst hrr
          have hmv := (matchKeyAt_iff_matchVar hk1 hk2 cs rest').mp ⟨m', hm1⟩
          rw [hmv]
          simp [List.find?]
        · intro hcl
          cases hmv : matchVar cs with
          | none => rw [hmv] at hcl; exact absurd hcl (by simp)
          | some wr =>
              obtain ⟨w, rest2⟩ := wr
              rw [hmv] at hcl
              simp only [List.find?] at hcl
              by_cases hw : ((String.mk key) == w) = true
              · simp only [hw] at hcl
                injection hcl with hcl2
                rw [Prod.mk.injEq] at hcl2
                obtain ⟨-, hrr⟩ := hcl2
                subst hrr
                have hkw : String.mk key = w := eq_of_beq hw
                rw [← hkw] at hmv
                obtain ⟨m, hm⟩ := (matchKeyAt_iff_matchVar hk1 hk2 cs rest2).mpr hmv
                exact ⟨lbrace :: lbrace :: m, by rw [hm]; rfl⟩
              · have hw' : ((String.mk key) == w) = false := by simpa using hw
                rw [hw'] at hcl
                simp at hcl
      · have hbb' : (c1 == lbrace && c2 == lbrace) = false := by simpa using hbb
        rw [if_neg (by simp [hbb']), if_neg (by simp [hbb'])]
        simp

theorem claimMatchAt_val {k v : String} {l rest : List Char} {val : String}
    (h : claimMatchAt [(k, v)] l = some (val, rest)) : val = v := by
  match l with
  | [] => simp [claimMatchAt] at h
  | [c] => simp [claimMatchAt] at h
  | c1 :: c2 :: cs =>
      simp only [claimMatchAt] at h
      split at h
      · split at h
        · split at h
          · rename_i kv hfind
            have hmem := List.mem_of_find?_eq_some hfind
            simp only [List.mem_singleton] at hmem
            subst hmem
            injection h with h2
            rw [Prod.mk.injEq] at h2
            exact h2.1.symm
          · exact absurd h (by simp)
        · exact absurd h (by simp)
      · exact absurd h (by simp)

theorem fillPassGo_cons_some {key : List Char} {c : Char} {cs m rest : List Char}
    (value pre : List Char) (n : Nat) (h : tryMatchKey key (c :: cs) = some (m, rest)) :
    fillPassGo key value (n + 1) pre (c :: cs) =
      substDollar m pre.reverse rest value ++
        fillPassGo key value n (m.reverse ++ pre) rest := by
  simp only [fillPassGo, h]

theorem fillPassGo_cons_none {key : List Char} {c : Char} {cs : List Char}
    (value pre : List Char) (n : Nat) (h : tryMatchKey key (c :: cs) = none) :
    fillPassGo key value (n + 1) pre (c :: cs) =
      c :: fillPassGo key value n (c :: pre) cs := by
  simp only [fillPassGo, h]

theorem claimFillGo_cons_some {vars : List (String × String)} {c : Char}
    {cs rest : List Char} {val : String} (n : Nat)
    (h : claimMatchAt vars (c :: cs) = some (val, rest)) :
    claimFillGo vars (n + 1) (c :: cs) = val.data ++ claimFillGo vars n rest := by
  simp only [claimFillGo, h]

theorem claimFillGo_cons_none {vars : List (String × String)} {c : Char}
    {cs : List Char} (n : Nat) (h : claimMatchAt vars (c :: cs) = none) :
    claimFillGo vars (n + 1) (c :: cs) = c :: claimFillGo vars n cs := by
  simp only [claimFillGo, h]

theorem fillPassGo_eq_claimFillGo {key vdata : List Char} (hk1 : key ≠ [])
    (hk2 : ∀ c ∈ key, isIdentChar c = true)
    (hv : ∀ c ∈ vdata, (c == '$') = false) :
    ∀ (n : Nat) (l pre : List Char), l.length ≤ n →
      fillPassGo key vdata n pre l =
        claimFillGo [(String.mk key, String.mk vdata)] n l := by
  intro n
  induction n with
  | zero =>
      intro l pre hl
      have hnil : l = [] := List.eq_nil_of_length_eq_zero (Nat.le_zero.mp hl)
      subst hnil
      rfl
  | succ n ih =>
      intro l pre hl
      match l with
      | [] => rfl
      | c :: cs =>
          cases htm : tryMatchKey key (c :: cs) with
          | some mr =>
              obtain ⟨m, rest⟩ := mr
              have hcl : claimMatchAt [(String.mk key, String.mk vdata)] (c :: cs) =
                  some (String.mk vdata, rest) :=
                (tryMatchKey_iff_claimMatchAt hk1 hk2 _ _).mp ⟨m, htm⟩
              rw [fillPassGo_cons_some vdata pre n htm, claimFillGo_cons_some n hcl,
                substDollar_no_dollar vdata hv]
              have hlen := tryMatchKey_length htm
              rw [ih rest (m.reverse ++ pre) (by simp at hlen hl ⊢; omega)]
          | none =>
              have hcl : claimMatchAt [(String.mk key, String.mk vdata)] (c :: cs) =
                  none := by
                cases hc2 : claimMatchAt [(String.mk key, String.mk vdata)] (c :: cs) with
                | none => rfl
                | some vr =>
                    obtain ⟨val, rest⟩ := vr
                    have hval := claimMatchAt_val hc2
                    subst hval
                    obtain ⟨m, hm⟩ :=
                      (tryMatchKey_iff_claimMatchAt hk1 hk2 (c :: cs) rest).mpr hc2
                    rw [hm] at htm
                    exact absurd htm (by simp)
              rw [fillPassGo_cons_none vdata pre n htm, claimFillGo_cons_none n hcl]
              rw [ih cs (c :: pre) (by simp at hl ⊢; omega)]

/-- Claim C7, counterexample: `fillTemplate` does not replace
placeholders with exactly the supplied value.  JS `String.replace`
interprets `$`-patterns in the replacement string (value `"$$"` becomes
`"$"`), and the per-key passes are sequential, so a value containing a
later key's placeholder gets itself substituted (template `{{a}}` with
a→`{{b}}`, b→`X` yields `X`).  The simultaneous reading of the claim
(`claimFill`) yields `"$$"` and `"{{b}}"` respectively. -/
theorem fillTemplate_not_verbatim :
    fillTemplate "\x7b\x7ba\x7d\x7d" [("a", "$$")] = "$" ∧
    claimFill "\x7b\x7ba\x7d\x7d" [("a", "$$")] = "$$" ∧
    fillTemplate "\x7b\x7ba\x7d\x7d" [("a", "\x7b\x7bb\x7d\x7d"), ("b", "X")] = "X" ∧
    claimFill "\x7b\x7ba\x7d\x7d" [("a", "\x7b\x7bb\x7d\x7d"), ("b", "X")] =
      "\x7b\x7bb\x7d\x7d" ∧
    ("$" : String) ≠ "$$" ∧ ("X" : String) ≠ "\x7b\x7bb\x7d\x7d" := by
  refine ⟨by decide, by decide, by decide, by decide, by decide, by decide⟩

/-- Claim C7 (amended): extraction is as claimed — `extractVariables`
returns the identifiers captured by the `(\x7b\x7b)\s*([a-zA-Z0-9_]+)\s*(\x7d\x7d)`
scan with duplicates removed, keeping first occurrences in
first-appearance order (strictly increasing first-occurrence index).
Filling is sequential, one global replace pass per supplied entry in
entry order, each pass substituting JS `$`-patterns in the value; for
a single supplied identifier whose value contains no dollar sign it
coincides with the claim's simultaneous reading (`claimFill`): every
occurrence of that identifier's placeholder is replaced by exactly the
value and all other text, unsupplied placeholders included, is
untouched. -/
theorem template_extract_fill_spec :
    (∀ t : String,
        (extractVariables t).Nodup ∧
        (∀ v, v ∈ extractVariables t ↔ v ∈ scanVars t.data) ∧
        List.Sublist (extractVariables t) (scanVars t.data) ∧
        (extractVariables t).Pairwise
          (fun u v => (scanVars t.data).indexOf u < (scanVars t.data).indexOf v)) ∧
    (∀ (t : String) (vars : List (String × String)),
        fillTemplate t vars =
          vars.foldl (fun r kv => replaceAllKey r kv.1 kv.2) t) ∧
    (∀ (t k v : String),
        k.data ≠ [] → (∀ c ∈ k.data, isIdentChar c = true) →
        (∀ c ∈ v.data, c ≠ '$') →
        fillTemplate t [(k, v)] = claimFill t [(k, v)]) := by
  refine ⟨?_, fun t vars => rfl, ?_⟩
  · intro t
    exact ⟨firstDedup_nodup _, fun v => firstDedup_mem _ v, firstDedup_sublist _,
      firstDedup_pairwise _⟩
  · intro t k v hk1 hk2 hv
    have hv' : ∀ c ∈ v.data, (c == '$') = false := by
      intro c hc
      simpa using hv c hc
    have h := fillPassGo_eq_claimFillGo hk1 hk2 hv' t.data.length t.data [] (le_refl _)
    show String.mk (fillPassGo k.data v.data t.data.length [] t.data) = _
    rw [h]
    rfl

/-- Claim C7, witness: the amended single-variable statement at the
spec's own end-to-end example, filling `Hi {{name}}` with name→Sam. -/
theorem template_extract_fill_spec_witness :
    fillTemplate "Hi \x7b\x7bname\x7d\x7d" [("name", "Sam")] =
      claimFill "Hi \x7b\x7bname\x7d\x7d" [("name", "Sam")] :=
  template_extract_fill_spec.2.2 "Hi \x7b\x7bname\x7d\x7d" "name" "Sam"
    (by decide) (by decide) (by decide)
